import Mathlib

/-!
Verification development for the `autoascend` NetHack agent (`heur/heur.py`).

The agent keeps one `Level` per dungeon level (boolean `walkable`/`seen` grids,
an `objects` grid of remembered terrain glyphs, a `search_count` grid), computes
distance fields by breadth-first search under a movement-legality relation
(orthogonal steps always legal between walkable cells, diagonal steps illegal
when either endpoint's remembered object is a door), reconstructs paths
backwards along strictly decreasing distances, and selects explore/search
targets by row-major scans of the grids.

The shallow embedding below translates those functions.  Grids are total
functions from integer coordinates; the fixed map dimensions `C.SIZE_Y`,
`C.SIZE_X` (imported from the repository's `glyph` module, not part of the
source tree) are parameters `H W : ℕ`.  The glyph classification table `G`
takes its glyph-id sets from the external `nle` package, so it is a parameter
`GlyphTable` of boolean membership predicates.  The RNG shuffle applied to
neighbour lists is a parameter `sh : List Cell → List Cell`; theorems assume
only that it permutes its argument, and concrete evaluations use `id`.
-/

namespace AutoAscend

/-- A map cell, as a `(row, column)` pair of integers. -/
abbrev Cell := ℤ × ℤ

/-- Membership predicates for the glyph classification table `G` in the source.
The concrete glyph-id sets come from the external `nle` package. -/
structure GlyphTable where
  floorG : Int → Bool
  stoneG : Int → Bool
  wallG : Int → Bool
  corridorG : Int → Bool
  stairUpG : Int → Bool
  stairDownG : Int → Bool
  doorClosedG : Int → Bool
  doorOpenedG : Int → Bool
  monG : Int → Bool
  petG : Int → Bool

/-- `G.DOORS = G.DOOR_CLOSED ∪ G.DOOR_OPENED`. -/
def GlyphTable.doors (t : GlyphTable) (g : Int) : Bool :=
  t.doorClosedG g || t.doorOpenedG g

/-- The per-level state `Agent.Level`: four co-indexed grids. -/
structure Level where
  walkable : Cell → Bool
  seen : Cell → Bool
  objects : Cell → Int
  search_count : Cell → ℕ

/-- `Level.__init__`: all-false boolean grids, `objects` filled with `-1`,
zero search counts. -/
def Level.init : Level :=
  { walkable := fun _ => false
    seen := fun _ => false
    objects := fun _ => -1
    search_count := fun _ => 0 }

/-- `0 <= y < C.SIZE_Y and 0 <= x < C.SIZE_X`. -/
def inBounds (H W : ℕ) (c : Cell) : Bool :=
  decide (0 ≤ c.1) && decide (c.1 < (H : ℤ)) && decide (0 ≤ c.2) && decide (c.2 < (W : ℤ))

/-- The `(dy, dx)` offsets enumerated by `Agent.neighbors`, in the fixed order
of its two nested loops (`dy` outer, `dx` inner), with `(0,0)` skipped and,
when `diagonal` is false, the diagonal offsets skipped. -/
def offsets (diagonal : Bool) : List Cell :=
  if diagonal then [(-1,-1),(-1,0),(-1,1),(0,-1),(0,1),(1,-1),(1,0),(1,1)]
  else [(-1,0),(0,-1),(0,1),(1,0)]

/-- `Agent.neighbors` before the optional shuffle: in-bounds adjacent cells in
the fixed enumeration order. -/
def neighborsList (H W : ℕ) (c : Cell) (diagonal : Bool) : List Cell :=
  ((offsets diagonal).map (fun d => (c.1 + d.1, c.2 + d.2))).filter (inBounds H W)

/-- Row-major enumeration of all in-bounds cells, the order of the source's
`for y in range(C.SIZE_Y): for x in range(C.SIZE_X)` loops and of
`numpy.nonzero` on a grid. -/
def cellsList (H W : ℕ) : List Cell :=
  ((List.range H).map fun (y : ℕ) => (List.range W).map fun (x : ℕ) => ((y : ℤ), (x : ℤ))).flatten

lemma mem_cellsList {H W : ℕ} {c : Cell} :
    c ∈ cellsList H W ↔ inBounds H W c = true := by
  obtain ⟨y, x⟩ := c
  constructor
  · intro hm
    rw [cellsList, List.mem_flatten] at hm
    obtain ⟨l, hl, hx⟩ := hm
    rw [List.mem_map] at hl
    obtain ⟨y', hy', hl⟩ := hl
    subst hl
    rw [List.mem_map] at hx
    obtain ⟨x', hx', hxx⟩ := hx
    rw [List.mem_range] at hy' hx'
    rw [Prod.mk.injEq] at hxx
    simp only [inBounds, Bool.and_eq_true, decide_eq_true_eq]
    omega
  · intro hb
    simp only [inBounds, Bool.and_eq_true, decide_eq_true_eq] at hb
    rw [cellsList, List.mem_flatten]
    refine ⟨_, List.mem_map_of_mem _ (List.mem_range.2 (show y.toNat < H by omega)), ?_⟩
    refine List.mem_map.2 ⟨x.toNat, List.mem_range.2 (by omega), ?_⟩
    simp only [Prod.mk.injEq]
    omega

lemma cellsList_nodup (H W : ℕ) : (cellsList H W).Nodup := by
  rw [cellsList, List.nodup_flatten]
  constructor
  · intro l hl
    rw [List.mem_map] at hl
    obtain ⟨y, _, hl⟩ := hl
    subst hl
    refine List.Nodup.map ?_ (List.nodup_range W)
    intro a b h
    simpa using h
  · rw [List.pairwise_map]
    refine (List.pairwise_lt_range H).imp ?_
    intro a b hab
    simp only [List.Disjoint, List.mem_map, List.mem_range]
    rintro c ⟨p, _, hc⟩ ⟨q, _, h⟩
    subst hc
    have hba : (b : ℤ) = a := by
      have := congrArg Prod.fst h
      simpa using this
    omega

lemma cellsList_length (H W : ℕ) : (cellsList H W).length = H * W := by
  simp only [cellsList]
  rw [List.length_flatten, List.map_map]
  rw [show (List.length ∘ fun (y : ℕ) =>
      List.map (fun (x : ℕ) => ((y : ℤ), (x : ℤ))) (List.range W)) = fun _ => W by
    funext y; simp]
  rw [List.map_const', List.sum_replicate, List.length_range, smul_eq_mul]

lemma mem_neighborsList {H W : ℕ} {c p : Cell} {diag : Bool} :
    p ∈ neighborsList H W c diag ↔
      (p.1 - c.1, p.2 - c.2) ∈ offsets diag ∧ inBounds H W p = true := by
  simp only [neighborsList, List.mem_filter, List.mem_map]
  constructor
  · rintro ⟨⟨d, hd, rfl⟩, hb⟩
    refine ⟨?_, hb⟩
    simpa using hd
  · rintro ⟨hd, hb⟩
    exact ⟨⟨(p.1 - c.1, p.2 - c.2), hd, by simp⟩, hb⟩

lemma offsets_neg {d : Cell} {diag : Bool} (h : d ∈ offsets diag) :
    (-d.1, -d.2) ∈ offsets diag := by
  cases diag <;> simp only [offsets] at h ⊢ <;> fin_cases h <;> norm_num

lemma neighborsList_symm {H W : ℕ} {c p : Cell} {diag : Bool}
    (h : p ∈ neighborsList H W c diag) (hc : inBounds H W c = true) :
    c ∈ neighborsList H W p diag := by
  rw [mem_neighborsList] at h ⊢
  refine ⟨?_, hc⟩
  have := offsets_neg h.1
  simpa using this

lemma neighborsList_inBounds {H W : ℕ} {c p : Cell} {diag : Bool}
    (h : p ∈ neighborsList H W c diag) : inBounds H W p = true :=
  (mem_neighborsList.1 h).2

lemma neighborsList_ne {H W : ℕ} {c p : Cell} {diag : Bool}
    (h : p ∈ neighborsList H W c diag) : p ≠ c := by
  rcases mem_neighborsList.1 h with ⟨hd, -⟩
  intro h'
  subst h'
  rw [sub_self, sub_self] at hd
  cases diag <;> norm_num [offsets, Prod.ext_iff] at hd

/-! ## Distance field: `Agent.bfs` -/

/-- The legality test inside the bfs loop, for a step from the popped cell `c`
into a neighbour `p`:
`walkable[p] and (orthogonal or (objects[p] not in DOORS and objects[c] not in DOORS))`. -/
def legalStep (t : GlyphTable) (lv : Level) (c p : Cell) : Bool :=
  lv.walkable p &&
    (decide ((p.1 - c.1).natAbs + (p.2 - c.2).natAbs ≤ 1) ||
      (!t.doors (lv.objects p) && !t.doors (lv.objects c)))

/-- One legal bfs step from `c` to `p`: `p` is one of the enumerated in-bounds
neighbours of `c` and the legality test passes. -/
def stepRel (t : GlyphTable) (lv : Level) (H W : ℕ) (c p : Cell) : Prop :=
  p ∈ neighborsList H W c true ∧ legalStep t lv c p = true

/-- Pointwise update of a distance grid. -/
def gridSet (dis : Cell → Int) (p : Cell) (v : Int) : Cell → Int :=
  fun c => if c = p then v else dis c

/-- The inner neighbour loop of `Agent.bfs` for popped cell `c`: scan the
(shuffled) neighbour list, assign `dis c + 1` to each legal neighbour still at
`-1`, and collect the newly assigned cells in push order. -/
def bfsScan (t : GlyphTable) (lv : Level) (c : Cell) :
    List Cell → (Cell → Int) → ((Cell → Int) × List Cell)
  | [], dis => (dis, [])
  | p :: l, dis =>
      if legalStep t lv c p && (dis p == -1) then
        let r := bfsScan t lv c l (gridSet dis p (dis c + 1))
        (r.1, p :: r.2)
      else bfsScan t lv c l dis

/-- The FIFO loop of `Agent.bfs` (`buf` with `index`/`size` pointers in the
source).  Fuel bounds the number of pops; each cell is enqueued at most once,
so `H * W` pops suffice for an in-bounds source. -/
def bfsAux (t : GlyphTable) (lv : Level) (H W : ℕ) (sh : List Cell → List Cell) :
    ℕ → (Cell → Int) → List Cell → (Cell → Int)
  | 0, dis, _ => dis
  | _ + 1, dis, [] => dis
  | fuel + 1, dis, c :: q =>
      let r := bfsScan t lv c (sh (neighborsList H W c true)) dis
      bfsAux t lv H W sh fuel r.1 (q ++ r.2)

/-- `Agent.bfs`: the grid starts at `-1` everywhere, `0` at the source, and the
source is the initial queue content. -/
def bfs (t : GlyphTable) (lv : Level) (H W : ℕ) (sh : List Cell → List Cell)
    (src : Cell) : Cell → Int :=
  bfsAux t lv H W sh (H * W) (gridSet (fun _ => -1) src 0) [src]

lemma gridSet_same {dis : Cell → Int} {p : Cell} {v : Int} : gridSet dis p v p = v := by
  simp [gridSet]

lemma gridSet_other {dis : Cell → Int} {p c : Cell} {v : Int} (h : c ≠ p) :
    gridSet dis p v c = dis c := by
  simp [gridSet, h]

lemma bfsScan_fst (t : GlyphTable) (lv : Level) (c : Cell) :
    ∀ (l : List Cell) (dis : Cell → Int), 0 ≤ dis c →
      ∀ x, (bfsScan t lv c l dis).1 x =
        if x ∈ (bfsScan t lv c l dis).2 then dis c + 1 else dis x := by
  intro l
  induction l with
  | nil => intro dis _ x; simp [bfsScan]
  | cons p l ih =>
    intro dis hc x
    by_cases hcond : (legalStep t lv c p && (dis p == -1)) = true
    · have hpc : c ≠ p := by
        intro h
        subst h
        simp only [Bool.and_eq_true, beq_iff_eq] at hcond
        omega
      have hc' : 0 ≤ gridSet dis p (dis c + 1) c := by
        rw [gridSet_other hpc]; exact hc
      have := ih (gridSet dis p (dis c + 1)) hc'
      simp only [bfsScan, hcond, if_true]
      by_cases hx : x ∈ (bfsScan t lv c l (gridSet dis p (dis c + 1))).2
      · have h1 := this x
        rw [if_pos hx] at h1
        rw [gridSet_other hpc] at h1
        simp only [List.mem_cons, hx, or_true, if_pos]
        exact h1
      · have h1 := this x
        rw [if_neg hx] at h1
        by_cases hxp : x = p
        · subst hxp
          simp only [List.mem_cons, true_or, if_pos]
          rw [h1, gridSet_same]
        · have hnot : x ∉ p :: (bfsScan t lv c l (gridSet dis p (dis c + 1))).2 := by
            simp only [List.mem_cons, not_or]
            exact ⟨hxp, hx⟩
          rw [if_neg hnot, h1, gridSet_other hxp]
    · simp only [bfsScan, hcond, Bool.false_eq_true, if_false]
      exact ih dis hc x

lemma bfsScan_mem (t : GlyphTable) (lv : Level) (c : Cell) :
    ∀ (l : List Cell) (dis : Cell → Int), 0 ≤ dis c →
      ∀ x, x ∈ (bfsScan t lv c l dis).2 ↔
        dis x = -1 ∧ legalStep t lv c x = true ∧ x ∈ l := by
  intro l
  induction l with
  | nil => intro dis _ x; simp [bfsScan]
  | cons p l ih =>
    intro dis hc x
    by_cases hcond : (legalStep t lv c p && (dis p == -1)) = true
    · simp only [Bool.and_eq_true, beq_iff_eq] at hcond
      have hpc : c ≠ p := by intro h; subst h; omega
      have hc' : 0 ≤ gridSet dis p (dis c + 1) c := by
        rw [gridSet_other hpc]; exact hc
      have hrec := ih (gridSet dis p (dis c + 1)) hc'
      simp only [bfsScan, Bool.and_eq_true, beq_iff_eq, hcond.1, hcond.2, and_self,
        if_true, List.mem_cons]
      constructor
      · rintro (rfl | hx)
        · exact ⟨hcond.2, hcond.1, Or.inl rfl⟩
        · have := (hrec x).1 hx
          rcases this with ⟨hd, hleg, hmem⟩
          by_cases hxp : x = p
          · subst hxp
            rw [gridSet_same] at hd
            omega
          · rw [gridSet_other hxp] at hd
            exact ⟨hd, hleg, Or.inr hmem⟩
      · rintro ⟨hd, hleg, (rfl | hmem)⟩
        · exact Or.inl rfl
        · by_cases hxp : x = p
          · exact Or.inl hxp
          · refine Or.inr ((hrec x).2 ⟨?_, hleg, hmem⟩)
            rw [gridSet_other hxp]
            exact hd
    · simp only [bfsScan, hcond, Bool.false_eq_true, if_false]
      rw [ih dis hc x, List.mem_cons]
      constructor
      · rintro ⟨hd, hleg, hmem⟩
        exact ⟨hd, hleg, Or.inr hmem⟩
      · rintro ⟨hd, hleg, (rfl | hmem)⟩
        · exfalso
          apply hcond
          simp only [Bool.and_eq_true, beq_iff_eq]
          exact ⟨hleg, hd⟩
        · exact ⟨hd, hleg, hmem⟩

lemma bfsScan_nodup (t : GlyphTable) (lv : Level) (c : Cell) :
    ∀ (l : List Cell) (dis : Cell → Int), 0 ≤ dis c →
      (bfsScan t lv c l dis).2.Nodup := by
  intro l
  induction l with
  | nil => intro dis _; simp [bfsScan]
  | cons p l ih =>
    intro dis hc
    by_cases hcond : (legalStep t lv c p && (dis p == -1)) = true
    · simp only [Bool.and_eq_true, beq_iff_eq] at hcond
      have hpc : c ≠ p := by intro h; subst h; omega
      have hc' : 0 ≤ gridSet dis p (dis c + 1) c := by
        rw [gridSet_other hpc]; exact hc
      simp only [bfsScan, Bool.and_eq_true, beq_iff_eq, hcond.1, hcond.2, and_self, if_true]
      rw [List.nodup_cons]
      refine ⟨?_, ih _ hc'⟩
      intro hmem
      have := (bfsScan_mem t lv c l (gridSet dis p (dis c + 1)) hc' p).1 hmem
      rw [gridSet_same] at this
      omega
    · simp only [bfsScan, hcond, Bool.false_eq_true, if_false]
      exact ih dis hc

/-! ## Correctness of the distance field -/

/-- Paths of exactly `n` legal bfs steps from the source. -/
def ReachN (t : GlyphTable) (lv : Level) (H W : ℕ) (src : Cell) : ℕ → Cell → Prop
  | 0, c => c = src
  | n + 1, c => ∃ p, ReachN t lv H W src n p ∧ stepRel t lv H W p c

/-- Invariant of the bfs loop state: a distance grid and the pending queue. -/
structure BfsInv (t : GlyphTable) (lv : Level) (H W : ℕ) (src : Cell)
    (dis : Cell → Int) (q : List Cell) : Prop where
  srcZero : dis src = 0
  sound : ∀ c, dis c ≠ -1 → ∃ n : ℕ, dis c = n ∧ ReachN t lv H W src n c
  qAssigned : ∀ p ∈ q, dis p ≠ -1
  qPairwise : q.Pairwise (fun a b => dis a ≤ dis b)
  qBand : ∀ a ∈ q, ∀ b ∈ q, dis a ≤ dis b + 1
  qNodup : q.Nodup
  qIn : ∀ p ∈ q, inBounds H W p = true
  closed : ∀ p, dis p ≠ -1 → p ∉ q →
    ∀ x, stepRel t lv H W p x → dis x ≠ -1 ∧ dis x ≤ dis p + 1
  procLe : ∀ p, dis p ≠ -1 → p ∉ q → ∀ b ∈ q, dis p ≤ dis b

/-- What remains of the invariant when the queue has emptied. -/
def FinalInv (t : GlyphTable) (lv : Level) (H W : ℕ) (src : Cell)
    (dis : Cell → Int) : Prop :=
  dis src = 0 ∧
  (∀ c, dis c ≠ -1 → ∃ n : ℕ, dis c = n ∧ ReachN t lv H W src n c) ∧
  (∀ p, dis p ≠ -1 → ∀ x, stepRel t lv H W p x → dis x ≠ -1 ∧ dis x ≤ dis p + 1)

lemma BfsInv.final {t : GlyphTable} {lv : Level} {H W : ℕ} {src : Cell}
    {dis : Cell → Int} (inv : BfsInv t lv H W src dis []) :
    FinalInv t lv H W src dis :=
  ⟨inv.srcZero, inv.sound, fun p hp x hs =>
    inv.closed p hp (List.not_mem_nil p) x hs⟩

lemma bfs_step_inv {t : GlyphTable} {lv : Level} {H W : ℕ} {src : Cell}
    {sh : List Cell → List Cell} (hsh : ∀ l : List Cell, (sh l).Perm l)
    {dis : Cell → Int} {c : Cell} {q : List Cell}
    (inv : BfsInv t lv H W src dis (c :: q)) :
    BfsInv t lv H W src
      (bfsScan t lv c (sh (neighborsList H W c true)) dis).1
      (q ++ (bfsScan t lv c (sh (neighborsList H W c true)) dis).2) := by
  have hcA : dis c ≠ -1 := inv.qAssigned c (List.mem_cons_self c q)
  obtain ⟨nc, hnc, hreachc⟩ := inv.sound c hcA
  have hc0 : 0 ≤ dis c := by rw [hnc]; exact Int.natCast_nonneg nc
  have hfst := bfsScan_fst t lv c (sh (neighborsList H W c true)) dis hc0
  have hmem := bfsScan_mem t lv c (sh (neighborsList H W c true)) dis hc0
  have hnd := bfsScan_nodup t lv c (sh (neighborsList H W c true)) dis hc0
  set dis' := (bfsScan t lv c (sh (neighborsList H W c true)) dis).1 with hdis'def
  set push := (bfsScan t lv c (sh (neighborsList H W c true)) dis).2 with hpushdef
  have hmem' : ∀ x, x ∈ push ↔
      dis x = -1 ∧ legalStep t lv c x = true ∧ x ∈ neighborsList H W c true := by
    intro x
    rw [hmem x, (hsh (neighborsList H W c true)).mem_iff]
  have hpushNew : ∀ p ∈ push, dis p = -1 := fun p hp => ((hmem' p).1 hp).1
  have hpushVal : ∀ p ∈ push, dis' p = dis c + 1 := by
    intro p hp
    rw [hfst p, if_pos hp]
  have hold : ∀ x, dis x ≠ -1 → dis' x = dis x := by
    intro x hx
    rw [hfst x, if_neg (fun hm => hx (hpushNew x hm))]
  have hnew : ∀ x, dis' x ≠ -1 → dis x ≠ -1 ∨ x ∈ push := by
    intro x hx
    by_cases hm : x ∈ push
    · exact Or.inr hm
    · rw [hfst x, if_neg hm] at hx
      exact Or.inl hx
  have hheadLe : ∀ b ∈ q, dis c ≤ dis b := by
    have h := inv.qPairwise
    rw [List.pairwise_cons] at h
    exact h.1
  have hbandc : ∀ b ∈ q, dis b ≤ dis c + 1 := fun b hb =>
    inv.qBand b (List.mem_cons_of_mem c hb) c (List.mem_cons_self c q)
  have hcnotq : c ∉ q := (List.nodup_cons.1 inv.qNodup).1
  refine
    { srcZero := ?_
      sound := ?_
      qAssigned := ?_
      qPairwise := ?_
      qBand := ?_
      qNodup := ?_
      qIn := ?_
      closed := ?_
      procLe := ?_ }
  · rw [hold src (by rw [inv.srcZero]; omega)]
    exact inv.srcZero
  · intro x hx
    rcases hnew x hx with hxold | hxpush
    · rw [hold x hxold]
      exact inv.sound x hxold
    · refine ⟨nc + 1, ?_, ?_⟩
      · rw [hpushVal x hxpush, hnc]
        push_cast
        ring
      · exact ⟨c, hreachc, ((hmem' x).1 hxpush).2.2, ((hmem' x).1 hxpush).2.1⟩
  · intro p hp
    rcases List.mem_append.1 hp with hpq | hpp
    · rw [hold p (inv.qAssigned p (List.mem_cons_of_mem c hpq))]
      exact inv.qAssigned p (List.mem_cons_of_mem c hpq)
    · rw [hpushVal p hpp]
      omega
  · rw [List.pairwise_append]
    refine ⟨?_, ?_, ?_⟩
    · have h := (List.pairwise_cons.1 inv.qPairwise).2
      refine List.Pairwise.imp_of_mem ?_ h
      intro a b ha hb hab
      rw [hold a (inv.qAssigned a (List.mem_cons_of_mem c ha)),
        hold b (inv.qAssigned b (List.mem_cons_of_mem c hb))]
      exact hab
    · refine List.pairwise_of_forall_mem_list ?_
      intro a ha b hb
      rw [hpushVal a ha, hpushVal b hb]
    · intro a ha b hb
      rw [hold a (inv.qAssigned a (List.mem_cons_of_mem c ha)), hpushVal b hb]
      exact hbandc a ha
  · intro a ha b hb
    rcases List.mem_append.1 ha with ha' | ha' <;> rcases List.mem_append.1 hb with hb' | hb'
    · rw [hold a (inv.qAssigned a (List.mem_cons_of_mem c ha')),
        hold b (inv.qAssigned b (List.mem_cons_of_mem c hb'))]
      exact inv.qBand a (List.mem_cons_of_mem c ha') b (List.mem_cons_of_mem c hb')
    · rw [hold a (inv.qAssigned a (List.mem_cons_of_mem c ha')), hpushVal b hb']
      have := hbandc a ha'
      omega
    · rw [hpushVal a ha', hold b (inv.qAssigned b (List.mem_cons_of_mem c hb'))]
      have := hheadLe b hb'
      omega
    · rw [hpushVal a ha', hpushVal b hb']
      omega
  · rw [List.nodup_append]
    refine ⟨(List.nodup_cons.1 inv.qNodup).2, hnd, ?_⟩
    intro a haq hapush
    exact inv.qAssigned a (List.mem_cons_of_mem c haq) (hpushNew a hapush)
  · intro p hp
    rcases List.mem_append.1 hp with hpq | hpp
    · exact inv.qIn p (List.mem_cons_of_mem c hpq)
    · exact neighborsList_inBounds ((hmem' p).1 hpp).2.2
  · intro p hp hpnot x hstep
    have hpnotq : p ∉ q := fun h => hpnot (List.mem_append.2 (Or.inl h))
    have hpnotpush : p ∉ push := fun h => hpnot (List.mem_append.2 (Or.inr h))
    by_cases hpc : p = c
    · subst hpc
      rcases hstep with ⟨hxN, hxleg⟩
      by_cases hxold : dis x = -1
      · have hxpush : x ∈ push := (hmem' x).2 ⟨hxold, hxleg, hxN⟩
        rw [hpushVal x hxpush, hold p hcA]
        omega
      · rw [hold x hxold, hold p hcA]
        refine ⟨hxold, ?_⟩
        by_cases hxc : x = p
        · subst hxc
          omega
        · by_cases hxq : x ∈ q
          · exact hbandc x hxq
          · have hxnot : x ∉ p :: q := by
              simp only [List.mem_cons, not_or]
              exact ⟨hxc, hxq⟩
            have := inv.procLe x hxold hxnot p (List.mem_cons_self p q)
            omega
    · have hpdis : dis p ≠ -1 := by
        intro h
        rw [hfst p, if_neg hpnotpush] at hp
        exact hp h
      have hpnotold : p ∉ c :: q := by
        simp only [List.mem_cons, not_or]
        exact ⟨hpc, hpnotq⟩
      have hcl := inv.closed p hpdis hpnotold x hstep
      rw [hold x hcl.1, hold p hpdis]
      exact hcl
  · intro p hp hpnot b hb
    have hpnotq : p ∉ q := fun h => hpnot (List.mem_append.2 (Or.inl h))
    have hpnotpush : p ∉ push := fun h => hpnot (List.mem_append.2 (Or.inr h))
    by_cases hpc : p = c
    · subst hpc
      rw [hold p hcA]
      rcases List.mem_append.1 hb with hb' | hb'
      · rw [hold b (inv.qAssigned b (List.mem_cons_of_mem p hb'))]
        exact hheadLe b hb'
      · rw [hpushVal b hb']
        omega
    · have hpdis : dis p ≠ -1 := by
        intro h
        rw [hfst p, if_neg hpnotpush] at hp
        exact hp h
      have hpnotold : p ∉ c :: q := by
        simp only [List.mem_cons, not_or]
        exact ⟨hpc, hpnotq⟩
      rw [hold p hpdis]
      rcases List.mem_append.1 hb with hb' | hb'
      · rw [hold b (inv.qAssigned b (List.mem_cons_of_mem c hb'))]
        exact inv.procLe p hpdis hpnotold b (List.mem_cons_of_mem c hb')
      · rw [hpushVal b hb']
        have := inv.procLe p hpdis hpnotold c (List.mem_cons_self c q)
        omega

/-- Number of in-bounds cells still unassigned. -/
def unassigned (H W : ℕ) (dis : Cell → Int) : ℕ :=
  ((cellsList H W).toFinset.filter (fun c => dis c = -1)).card

lemma bfsAux_final {t : GlyphTable} {lv : Level} {H W : ℕ} {src : Cell}
    {sh : List Cell → List Cell} (hsh : ∀ l : List Cell, (sh l).Perm l) :
    ∀ (fuel : ℕ) (dis : Cell → Int) (q : List Cell),
      BfsInv t lv H W src dis q → unassigned H W dis + q.length ≤ fuel →
      FinalInv t lv H W src (bfsAux t lv H W sh fuel dis q) := by
  intro fuel
  induction fuel with
  | zero =>
    intro dis q inv hm
    have hq : q = [] := by
      cases q with
      | nil => rfl
      | cons a l => simp at hm
    subst hq
    exact inv.final
  | succ fuel ih =>
    intro dis q inv hm
    cases q with
    | nil => exact inv.final
    | cons c q =>
      have hcA : dis c ≠ -1 := inv.qAssigned c (List.mem_cons_self c q)
      obtain ⟨nc, hnc, -⟩ := inv.sound c hcA
      have hc0 : 0 ≤ dis c := by rw [hnc]; exact Int.natCast_nonneg nc
      have hfst := bfsScan_fst t lv c (sh (neighborsList H W c true)) dis hc0
      have hmem := bfsScan_mem t lv c (sh (neighborsList H W c true)) dis hc0
      have hnd := bfsScan_nodup t lv c (sh (neighborsList H W c true)) dis hc0
      set dis' := (bfsScan t lv c (sh (neighborsList H W c true)) dis).1 with hd'
      set push := (bfsScan t lv c (sh (neighborsList H W c true)) dis).2 with hp'
      have hstep : bfsAux t lv H W sh (fuel + 1) dis (c :: q) =
          bfsAux t lv H W sh fuel dis' (q ++ push) := rfl
      rw [hstep]
      have hsub : push.toFinset ⊆ (cellsList H W).toFinset.filter (fun x => dis x = -1) := by
        intro p hp
        rw [List.mem_toFinset] at hp
        have h1 := (hmem p).1 hp
        rw [(hsh (neighborsList H W c true)).mem_iff] at h1
        rw [Finset.mem_filter, List.mem_toFinset, mem_cellsList]
        exact ⟨neighborsList_inBounds h1.2.2, h1.1⟩
      have hset : (cellsList H W).toFinset.filter (fun x => dis' x = -1) =
          ((cellsList H W).toFinset.filter (fun x => dis x = -1)) \ push.toFinset := by
        ext x
        simp only [Finset.mem_filter, Finset.mem_sdiff, List.mem_toFinset]
        constructor
        · intro ⟨hx1, hx2⟩
          have hxp : x ∉ push := by
            intro hm'
            rw [hfst x, if_pos hm'] at hx2
            omega
          rw [hfst x, if_neg hxp] at hx2
          exact ⟨⟨hx1, hx2⟩, hxp⟩
        · intro ⟨⟨hx1, hx2⟩, hxp⟩
          rw [hfst x, if_neg hxp]
          exact ⟨hx1, hx2⟩
      have hcount : unassigned H W dis' = unassigned H W dis - push.length := by
        rw [unassigned, hset, Finset.card_sdiff hsub, List.toFinset_card_of_nodup hnd]
        rfl
      have hple : push.length ≤ unassigned H W dis := by
        calc push.length = push.toFinset.card := (List.toFinset_card_of_nodup hnd).symm
        _ ≤ _ := Finset.card_le_card hsub
      refine ih dis' (q ++ push) (bfs_step_inv hsh inv) ?_
      rw [List.length_append, hcount]
      simp only [List.length_cons] at hm
      omega

lemma reachN_complete {t : GlyphTable} {lv : Level} {H W : ℕ} {src : Cell}
    {dis : Cell → Int} (fi : FinalInv t lv H W src dis) :
    ∀ (n : ℕ) (x : Cell), ReachN t lv H W src n x → dis x ≠ -1 ∧ dis x ≤ n := by
  intro n
  induction n with
  | zero =>
    intro x hx
    rw [show x = src from hx, fi.1]
    omega
  | succ n ih =>
    intro x hx
    obtain ⟨p, hp, hstep⟩ := hx
    obtain ⟨hp1, hp2⟩ := ih p hp
    have := fi.2.2 p hp1 x hstep
    push_cast
    omega

lemma reachN_inBounds {t : GlyphTable} {lv : Level} {H W : ℕ} {src : Cell}
    (hin : inBounds H W src = true) :
    ∀ (n : ℕ) (x : Cell), ReachN t lv H W src n x → inBounds H W x = true := by
  intro n
  induction n with
  | zero => intro x hx; rw [show x = src from hx]; exact hin
  | succ n ih =>
    intro x hx
    obtain ⟨p, -, hstep⟩ := hx
    exact neighborsList_inBounds hstep.1

lemma bfs_finalInv {t : GlyphTable} {lv : Level} {H W : ℕ} {src : Cell}
    {sh : List Cell → List Cell} (hsh : ∀ l : List Cell, (sh l).Perm l)
    (hin : inBounds H W src = true) :
    FinalInv t lv H W src (bfs t lv H W sh src) := by
  have hsrc : src ∈ cellsList H W := mem_cellsList.2 hin
  have hinv : BfsInv t lv H W src (gridSet (fun _ => -1) src 0) [src] := by
    refine
      { srcZero := gridSet_same
        sound := ?_
        qAssigned := ?_
        qPairwise := ?_
        qBand := ?_
        qNodup := List.nodup_singleton src
        qIn := ?_
        closed := ?_
        procLe := ?_ }
    · intro c hc
      by_cases h : c = src
      · subst h
        exact ⟨0, gridSet_same, rfl⟩
      · rw [gridSet_other h] at hc
        omega
    · intro p hp
      rw [List.mem_singleton] at hp
      subst hp
      rw [gridSet_same]
      omega
    · simp
    · intro a ha b hb
      rw [List.mem_singleton] at ha hb
      subst ha; subst hb
      omega
    · intro p hp
      rw [List.mem_singleton] at hp
      subst hp
      exact hin
    · intro p hp hpnot x hstep
      exfalso
      by_cases h : p = src
      · exact hpnot (by rw [h]; exact List.mem_singleton_self src)
      · rw [gridSet_other h] at hp
        exact hp rfl
    · intro p hp hpnot b hb
      exfalso
      by_cases h : p = src
      · exact hpnot (by rw [h]; exact List.mem_singleton_self src)
      · rw [gridSet_other h] at hp
        exact hp rfl
  have hcount : unassigned H W (gridSet (fun _ => -1) src 0) + 1 ≤ H * W := by
    have hcells : (cellsList H W).toFinset.card = H * W := by
      rw [List.toFinset_card_of_nodup (cellsList_nodup H W), cellsList_length]
    have hfilter : (cellsList H W).toFinset.filter
        (fun c => gridSet (fun _ => -1) src 0 c = -1) ⊆ (cellsList H W).toFinset.erase src := by
      intro x hx
      rw [Finset.mem_filter] at hx
      rw [Finset.mem_erase]
      refine ⟨?_, hx.1⟩
      intro h
      subst h
      rw [gridSet_same] at hx
      omega
    have h1 : unassigned H W (gridSet (fun _ => -1) src 0) ≤
        ((cellsList H W).toFinset.erase src).card := Finset.card_le_card hfilter
    have h2 : ((cellsList H W).toFinset.erase src).card =
        (cellsList H W).toFinset.card - 1 :=
      Finset.card_erase_of_mem (List.mem_toFinset.2 hsrc)
    have h3 : 1 ≤ (cellsList H W).toFinset.card :=
      Finset.card_pos.2 ⟨src, List.mem_toFinset.2 hsrc⟩
    omega
  exact bfsAux_final hsh (H * W) _ [src] hinv (by simpa using hcount)

/-- The values of the final distance grid are exact shortest hop counts:
an assigned cell carries the length of a shortest legal path from the source,
and unassigned (`-1`) cells admit no legal path at all. -/
lemma bfs_exact {t : GlyphTable} {lv : Level} {H W : ℕ} {src : Cell}
    {sh : List Cell → List Cell} (hsh : ∀ l : List Cell, (sh l).Perm l)
    (hin : inBounds H W src = true) :
    bfs t lv H W sh src src = 0 ∧
    (∀ c, bfs t lv H W sh src c ≠ -1 →
      ∃ n : ℕ, bfs t lv H W sh src c = n ∧ ReachN t lv H W src n c ∧
        ∀ m : ℕ, ReachN t lv H W src m c → n ≤ m) ∧
    (∀ c, bfs t lv H W sh src c = -1 → ∀ n : ℕ, ¬ ReachN t lv H W src n c) := by
  have fi := @bfs_finalInv t lv H W src sh hsh hin
  refine ⟨fi.1, ?_, ?_⟩
  · intro c hc
    obtain ⟨n, hn, hr⟩ := fi.2.1 c hc
    refine ⟨n, hn, hr, ?_⟩
    intro m hm
    have := (reachN_complete fi m c hm).2
    omega
  · intro c hc n hn
    have := (reachN_complete fi n c hn).1
    exact this hc

/-! ## The movement-legality relation as the specification words it -/

/-- The spec's movement-legality relation: both endpoints walkable, the step an
enumerated adjacency, orthogonal always legal, diagonal only between non-door
objects.  It adds walkability of the stepped-from cell to the code's test. -/
def specRel (t : GlyphTable) (lv : Level) (H W : ℕ) (c p : Cell) : Prop :=
  stepRel t lv H W c p ∧ lv.walkable c = true

/-- Paths of exactly `n` steps of the spec's movement-legality relation. -/
def ReachSpecN (t : GlyphTable) (lv : Level) (H W : ℕ) (src : Cell) : ℕ → Cell → Prop
  | 0, c => c = src
  | n + 1, c => ∃ p, ReachSpecN t lv H W src n p ∧ specRel t lv H W p c

lemma stepRel_walkable {t : GlyphTable} {lv : Level} {H W : ℕ} {c p : Cell}
    (h : stepRel t lv H W c p) : lv.walkable p = true := by
  have := h.2
  rw [legalStep, Bool.and_eq_true] at this
  exact this.1

lemma reachN_walkable {t : GlyphTable} {lv : Level} {H W : ℕ} {src : Cell}
    (hw : lv.walkable src = true) :
    ∀ (n : ℕ) (c : Cell), ReachN t lv H W src n c → lv.walkable c = true := by
  intro n
  induction n with
  | zero => intro c hc; rw [show c = src from hc]; exact hw
  | succ n ih =>
    intro c hc
    obtain ⟨p, -, hstep⟩ := hc
    exact stepRel_walkable hstep

lemma reachN_iff_reachSpecN {t : GlyphTable} {lv : Level} {H W : ℕ} {src : Cell}
    (hw : lv.walkable src = true) :
    ∀ (n : ℕ) (c : Cell), ReachN t lv H W src n c ↔ ReachSpecN t lv H W src n c := by
  intro n
  induction n with
  | zero => intro c; exact Iff.rfl
  | succ n ih =>
    intro c
    constructor
    · rintro ⟨p, hp, hstep⟩
      exact ⟨p, (ih p).1 hp, hstep, reachN_walkable hw n p hp⟩
    · rintro ⟨p, hp, hstep, -⟩
      exact ⟨p, (ih p).2 hp, hstep⟩

/-! ## Concrete instances used for evaluations -/

/-- A concrete glyph table with one representative glyph id per category
(stone 0, floor 1, wall 2, corridor 3, closed door 4, open door 5, stairs 6/7,
hostile 8, pet 9), standing in for the `nle` glyph-id sets. -/
def T : GlyphTable :=
  { floorG := fun g => g == 1
    stoneG := fun g => g == 0
    wallG := fun g => g == 2
    corridorG := fun g => g == 3
    stairUpG := fun g => g == 6
    stairDownG := fun g => g == 7
    doorClosedG := fun g => g == 4
    doorOpenedG := fun g => g == 5
    monG := fun g => g == 8
    petG := fun g => g == 9 }

/-- 1×2 level whose only walkable cell is `(0,1)`; the bfs source `(0,0)` is
not walkable. -/
def exLvl2 : Level :=
  { walkable := fun c => decide (c = ((0 : ℤ), (1 : ℤ)))
    seen := fun _ => true
    objects := fun _ => 1
    search_count := fun _ => 0 }

lemma exLvl2_reach : ∀ (n : ℕ) (c : Cell),
    ReachSpecN T exLvl2 1 2 ((0 : ℤ), (0 : ℤ)) n c → n = 0 ∧ c = ((0 : ℤ), (0 : ℤ)) := by
  intro n
  induction n with
  | zero => intro c hc; exact ⟨rfl, hc⟩
  | succ n ih =>
    intro c hc
    obtain ⟨p, hp, -, hw⟩ := hc
    rw [(ih p hp).2] at hw
    exact absurd hw (by decide)

/-- C2: the claim requires `-1` at every cell unreachable under the relation
in which BOTH endpoints must be walkable.  From the non-walkable source
`(0,0)` of `exLvl2` no such step exists at all, yet the code — which checks
walkability only of the stepped-to cell — assigns distance 1 to `(0,1)`. -/
theorem C2_counterexample :
    bfs T exLvl2 1 2 id ((0 : ℤ), (0 : ℤ)) ((0 : ℤ), (1 : ℤ)) = 1 ∧
    (∀ n : ℕ, ¬ ReachSpecN T exLvl2 1 2 ((0 : ℤ), (0 : ℤ)) n ((0 : ℤ), (1 : ℤ))) := by
  constructor
  · decide
  · intro n hn
    have := exLvl2_reach n _ hn
    exact absurd this.2 (by decide)

/-- C2 (amended: the source cell must itself be walkable): `Agent.bfs` returns
0 at the source, the minimum step count of the movement-legality relation at
every cell reachable under it, and `-1` at every unreachable cell. -/
theorem C2_bfs_correct (t : GlyphTable) (lv : Level) (H W : ℕ)
    (sh : List Cell → List Cell) (src : Cell)
    (hsh : ∀ l : List Cell, (sh l).Perm l)
    (hin : inBounds H W src = true) (hw : lv.walkable src = true) :
    bfs t lv H W sh src src = 0 ∧
    (∀ c, (∃ n : ℕ, ReachSpecN t lv H W src n c) →
      ∃ n : ℕ, bfs t lv H W sh src c = n ∧ ReachSpecN t lv H W src n c ∧
        ∀ m : ℕ, ReachSpecN t lv H W src m c → n ≤ m) ∧
    (∀ c, (∀ n : ℕ, ¬ ReachSpecN t lv H W src n c) → bfs t lv H W sh src c = -1) := by
  obtain ⟨h0, hex, hun⟩ := @bfs_exact t lv H W src sh hsh hin
  refine ⟨h0, ?_, ?_⟩
  · intro c hc
    obtain ⟨n, hn⟩ := hc
    have hrn : ReachN t lv H W src n c := (reachN_iff_reachSpecN hw n c).2 hn
    have hne : bfs t lv H W sh src c ≠ -1 := by
      intro h
      exact hun c h n hrn
    obtain ⟨m, hm, hr, hmin⟩ := hex c hne
    refine ⟨m, hm, (reachN_iff_reachSpecN hw m c).1 hr, ?_⟩
    intro k hk
    exact hmin k ((reachN_iff_reachSpecN hw k c).2 hk)
  · intro c hc
    by_contra h
    obtain ⟨m, -, hr, -⟩ := hex c h
    exact hc m ((reachN_iff_reachSpecN hw m c).1 hr)

/-- 1×2 level with both cells walkable floor. -/
def exLvlW : Level :=
  { walkable := fun _ => true
    seen := fun _ => true
    objects := fun _ => 1
    search_count := fun _ => 0 }

/-- Witness: C2_bfs_correct applied to a concrete 1×2 all-floor level. -/
theorem C2_bfs_correct_witness :
    (∀ l : List Cell, ((id : List Cell → List Cell) l).Perm l) ∧
    inBounds 1 2 ((0 : ℤ), (0 : ℤ)) = true ∧
    exLvlW.walkable ((0 : ℤ), (0 : ℤ)) = true ∧
    bfs T exLvlW 1 2 id ((0 : ℤ), (0 : ℤ)) ((0 : ℤ), (0 : ℤ)) = 0 :=
  ⟨fun l => List.Perm.refl l, by decide, by decide,
    (C2_bfs_correct T exLvlW 1 2 id ((0 : ℤ), (0 : ℤ))
      (fun l => List.Perm.refl l) (by decide) (by decide)).1⟩

/-! ## Path reconstruction: `Agent.path` -/

/-- The backward-walk loop of `Agent.path`: while the current cell is not the
source, take the first (shuffled-order) neighbour with strictly smaller
non-negative distance, append it, and continue; `none` models a failed
assertion (`assert 0` when no neighbour qualifies, and the final
`assert dis[cur] == 0`).  Fuel bounds the iterations; the distance strictly
decreases each step, so `dis dst + 1` suffices. -/
def pathLoop (sh : List Cell → List Cell) (H W : ℕ) (dis : Cell → Int) (src : Cell) :
    ℕ → Cell → List Cell → Option (List Cell)
  | 0, _, _ => none
  | fuel + 1, cur, acc =>
      if cur = src then
        if dis cur == 0 then some acc.reverse else none
      else
        match (sh (neighborsList H W cur true)).find?
            (fun p => decide (dis p < dis cur) && decide (0 ≤ dis p)) with
        | some p => pathLoop sh H W dis src fuel p (acc ++ [p])
        | none => none

/-- `Agent.path`: single-cell path when source equals destination, otherwise
`assert dis[to] != -1` (modelled as `none`) and the backward walk, reversed at
the end.  `disO = none` recomputes the distance field, as the `dis=None`
default does. -/
def pathFn (t : GlyphTable) (lv : Level) (H W : ℕ)
    (shB shP : List Cell → List Cell) (src dst : Cell)
    (disO : Option (Cell → Int)) : Option (List Cell) :=
  if src = dst then some [dst]
  else
    let dis := match disO with
      | some d => d
      | none => bfs t lv H W shB src
    if dis dst == -1 then none
    else pathLoop shP H W dis src ((dis dst).toNat + 1) dst [dst]

lemma bfs_zero_unique {t : GlyphTable} {lv : Level} {H W : ℕ} {src : Cell}
    {sh : List Cell → List Cell} (hsh : ∀ l : List Cell, (sh l).Perm l)
    (hin : inBounds H W src = true) :
    ∀ c, bfs t lv H W sh src c = 0 → c = src := by
  intro c hc
  obtain ⟨-, hex, -⟩ := @bfs_exact t lv H W src sh hsh hin
  obtain ⟨n, hn, hr, -⟩ := hex c (by omega)
  have hn0 : n = 0 := by omega
  rw [hn0] at hr
  exact hr

lemma bfs_nonneg {t : GlyphTable} {lv : Level} {H W : ℕ} {src : Cell}
    {sh : List Cell → List Cell} (hsh : ∀ l : List Cell, (sh l).Perm l)
    (hin : inBounds H W src = true) :
    ∀ c, bfs t lv H W sh src c ≠ -1 → 0 ≤ bfs t lv H W sh src c := by
  intro c hc
  obtain ⟨-, hex, -⟩ := @bfs_exact t lv H W src sh hsh hin
  obtain ⟨n, hn, -, -⟩ := hex c hc
  rw [hn]
  exact Int.natCast_nonneg n

lemma bfs_pred_exists {t : GlyphTable} {lv : Level} {H W : ℕ} {src : Cell}
    {sh : List Cell → List Cell} (hsh : ∀ l : List Cell, (sh l).Perm l)
    (hin : inBounds H W src = true) :
    ∀ c, bfs t lv H W sh src c ≠ -1 → c ≠ src →
      ∃ p ∈ neighborsList H W c true,
        bfs t lv H W sh src p < bfs t lv H W sh src c ∧ 0 ≤ bfs t lv H W sh src p := by
  intro c hc hcsrc
  obtain ⟨-, hex, -⟩ := @bfs_exact t lv H W src sh hsh hin
  obtain ⟨n, hn, hr, -⟩ := hex c hc
  cases n with
  | zero =>
    exfalso
    exact hcsrc (by rw [show c = src from hr])
  | succ m =>
    obtain ⟨p, hp, hstep⟩ := hr
    have hpin : inBounds H W p = true := reachN_inBounds hin m p hp
    have hmem : p ∈ neighborsList H W c true := neighborsList_symm hstep.1 hpin
    have fi := @bfs_finalInv t lv H W src sh hsh hin
    have hcomp := reachN_complete fi m p hp
    refine ⟨p, hmem, ?_, ?_⟩
    · rw [hn]
      push_cast
      omega
    · obtain ⟨k, hk, -⟩ := fi.2.1 p hcomp.1
      rw [hk]
      exact Int.natCast_nonneg k

lemma pathLoop_spec {H W : ℕ} {src : Cell} {sh : List Cell → List Cell}
    (hsh : ∀ l : List Cell, (sh l).Perm l) {dis : Cell → Int}
    (hsrc : dis src = 0)
    (hpred : ∀ c, dis c ≠ -1 → c ≠ src →
      ∃ p ∈ neighborsList H W c true, dis p < dis c ∧ 0 ≤ dis p) :
    ∀ (k : ℕ) (cur : Cell) (acc : List Cell) (fuel : ℕ),
      dis cur = (k : ℤ) → k < fuel →
      ∃ ext : List Cell,
        pathLoop sh H W dis src fuel cur acc = some ((acc ++ ext).reverse) ∧
        ext.length ≤ k ∧
        List.Chain' (fun b a => a ∈ neighborsList H W b true ∧ dis a < dis b ∧ 0 ≤ dis a)
          (cur :: ext) ∧
        (cur :: ext).getLast (List.cons_ne_nil cur ext) = src := by
  intro k
  induction k using Nat.strong_induction_on with
  | _ k ih =>
    intro cur acc fuel hk hfuel
    obtain ⟨f, rfl⟩ : ∃ f, fuel = f + 1 := ⟨fuel - 1, by omega⟩
    by_cases hcur : cur = src
    · subst hcur
      refine ⟨[], ?_, by simp, List.chain'_singleton cur, rfl⟩
      rw [pathLoop, if_pos rfl, if_pos (by rw [hsrc]; rfl)]
      simp
    · obtain ⟨p, hpmem, hplt, hpnn⟩ := hpred cur (by omega) hcur
      have hppred : (fun p => decide (dis p < dis cur) && decide (0 ≤ dis p)) p = true := by
        simp only [Bool.and_eq_true, decide_eq_true_eq]
        exact ⟨hplt, hpnn⟩
      have hpshmem : p ∈ sh (neighborsList H W cur true) :=
        (hsh (neighborsList H W cur true)).mem_iff.2 hpmem
      cases hfind : (sh (neighborsList H W cur true)).find?
          (fun p => decide (dis p < dis cur) && decide (0 ≤ dis p)) with
      | none =>
        exfalso
        have := List.find?_eq_none.1 hfind p hpshmem
        exact this hppred
      | some q =>
        have hqpred := List.find?_some hfind
        simp only [Bool.and_eq_true, decide_eq_true_eq] at hqpred
        have hqmem : q ∈ neighborsList H W cur true :=
          (hsh (neighborsList H W cur true)).mem_iff.1 (List.mem_of_find?_eq_some hfind)
        have hq0 : dis q = ((dis q).toNat : ℤ) := (Int.toNat_of_nonneg hqpred.2).symm
        have hqlt : (dis q).toNat < k := by omega
        obtain ⟨ext', hres, hlen, hchain, hlast⟩ :=
          ih (dis q).toNat hqlt q (acc ++ [q]) f hq0 (by omega)
        refine ⟨q :: ext', ?_, ?_, ?_, ?_⟩
        · rw [pathLoop, if_neg hcur, hfind]
          show pathLoop sh H W dis src f q (acc ++ [q]) = _
          rw [hres, List.append_assoc]
          rfl
        · simp only [List.length_cons]
          omega
        · rw [List.chain'_cons]
          exact ⟨⟨hqmem, hqpred.1, hqpred.2⟩, hchain⟩
        · rw [List.getLast_cons (List.cons_ne_nil q ext')]
          exact hlast

/-- 3×4 level: an open door at `(1,1)` (glyph 5), walls blocking row 2 except
`(2,2)`, `(2,3)`.  The cell `(2,2)` is reachable from `(1,0)` only around the
long way (distance 4), but the backward walk of `Agent.path` picks its
diagonal neighbour `(1,1)` (distance 1) although stepping diagonally off a
door is not movement-legal. -/
def exLvl1 : Level :=
  { walkable := fun c => decide (c ∈
      ([(0,0),(0,1),(0,2),(0,3),(1,0),(1,1),(1,3),(2,2),(2,3)] : List Cell))
    seen := fun _ => true
    objects := fun c => if c = ((1 : ℤ), (1 : ℤ)) then 5 else 1
    search_count := fun _ => 0 }

/-- C1: on `exLvl1` the destination `(2,2)` has distance-field value 4, yet the
reconstructed path is `[(1,0), (1,1), (2,2)]`: its length is 3, not 4+1, and
its second step is a diagonal move off the door at `(1,1)`, which the
movement-legality relation forbids.  The claim fails on the code. -/
theorem C1_counterexample :
    pathFn T exLvl1 3 4 id id ((1 : ℤ), (0 : ℤ)) ((2 : ℤ), (2 : ℤ))
        (some (bfs T exLvl1 3 4 id ((1 : ℤ), (0 : ℤ)))) =
      some [((1 : ℤ), (0 : ℤ)), ((1 : ℤ), (1 : ℤ)), ((2 : ℤ), (2 : ℤ))] ∧
    bfs T exLvl1 3 4 id ((1 : ℤ), (0 : ℤ)) ((2 : ℤ), (2 : ℤ)) = 4 ∧
    legalStep T exLvl1 ((1 : ℤ), (1 : ℤ)) ((2 : ℤ), (2 : ℤ)) = false := by
  refine ⟨by decide, by decide, by decide⟩

/-- C1 (amended): for a destination with distance-field value other than `-1`,
`Agent.path` returns a path that starts at the source, ends at the
destination, and whose consecutive cells are grid-adjacent with strictly
decreasing non-negative distance toward the source — hence its length is at
most `distance + 1`, but consecutive cells need not satisfy the
movement-legality relation and the length can be smaller, as the
counterexample shows.  If source equals destination it is the single-cell
path. -/
theorem C1_path_spec (t : GlyphTable) (lv : Level) (H W : ℕ)
    (shB shP : List Cell → List Cell) (src dst : Cell)
    (hshB : ∀ l : List Cell, (shB l).Perm l)
    (hshP : ∀ l : List Cell, (shP l).Perm l)
    (hin : inBounds H W src = true)
    (hdst : bfs t lv H W shB src dst ≠ -1) :
    (src = dst → pathFn t lv H W shB shP src dst (some (bfs t lv H W shB src)) = some [dst]) ∧
    (src ≠ dst → ∃ l, pathFn t lv H W shB shP src dst (some (bfs t lv H W shB src)) = some l ∧
      l.head? = some src ∧ l.getLast? = some dst ∧
      l.length ≤ (bfs t lv H W shB src dst).toNat + 1 ∧
      l.Chain' (fun a b => a ∈ neighborsList H W b true ∧
        bfs t lv H W shB src a < bfs t lv H W shB src b ∧ 0 ≤ bfs t lv H W shB src a)) := by
  constructor
  · intro h
    rw [pathFn, if_pos h]
  · intro hne
    have hnn := @bfs_nonneg t lv H W src shB hshB hin dst hdst
    have hk : bfs t lv H W shB src dst = ((bfs t lv H W shB src dst).toNat : ℤ) :=
      (Int.toNat_of_nonneg hnn).symm
    obtain ⟨ext, hres, hlen, hchain, hlast⟩ :=
      pathLoop_spec hshP (@bfs_exact t lv H W src shB hshB hin).1
        (bfs_pred_exists hshB hin) (bfs t lv H W shB src dst).toNat dst [dst]
        ((bfs t lv H W shB src dst).toNat + 1) hk (by omega)
    refine ⟨((dst :: ext).reverse), ?_, ?_, ?_, ?_, ?_⟩
    · rw [pathFn, if_neg hne]
      have hbeq : (bfs t lv H W shB src dst == -1) = false := by
        simp only [beq_eq_false_iff_ne, ne_eq]
        exact hdst
      show (if (bfs t lv H W shB src dst == -1) = true then none
        else pathLoop shP H W (bfs t lv H W shB src) src
          ((bfs t lv H W shB src dst).toNat + 1) dst [dst]) = _
      simp only [hbeq, Bool.false_eq_true, if_false]
      rw [hres]
      rfl
    · rw [List.head?_reverse]
      rw [List.getLast?_eq_getLast (dst :: ext) (List.cons_ne_nil dst ext)]
      rw [hlast]
    · rw [List.getLast?_reverse]
      rfl
    · rw [List.length_reverse]
      simp only [List.length_cons]
      omega
    · exact List.chain'_reverse.2 hchain

/-- Witness: C1_path_spec applied to the concrete 1×2 all-floor level. -/
theorem C1_path_spec_witness :
    (∀ l : List Cell, ((id : List Cell → List Cell) l).Perm l) ∧
    inBounds 1 2 ((0 : ℤ), (0 : ℤ)) = true ∧
    bfs T exLvlW 1 2 id ((0 : ℤ), (0 : ℤ)) ((0 : ℤ), (1 : ℤ)) ≠ -1 ∧
    (((0 : ℤ), (0 : ℤ)) : Cell) ≠ ((0 : ℤ), (1 : ℤ)) ∧
    (∃ l, pathFn T exLvlW 1 2 id id ((0 : ℤ), (0 : ℤ)) ((0 : ℤ), (1 : ℤ))
        (some (bfs T exLvlW 1 2 id ((0 : ℤ), (0 : ℤ)))) = some l ∧
      l.head? = some ((0 : ℤ), (0 : ℤ)) ∧ l.getLast? = some ((0 : ℤ), (1 : ℤ)) ∧
      l.length ≤ (bfs T exLvlW 1 2 id ((0 : ℤ), (0 : ℤ)) ((0 : ℤ), (1 : ℤ))).toNat + 1 ∧
      l.Chain' (fun a b => a ∈ neighborsList 1 2 b true ∧
        bfs T exLvlW 1 2 id ((0 : ℤ), (0 : ℤ)) a < bfs T exLvlW 1 2 id ((0 : ℤ), (0 : ℤ)) b ∧
        0 ≤ bfs T exLvlW 1 2 id ((0 : ℤ), (0 : ℤ)) a)) :=
  ⟨fun l => List.Perm.refl l, by decide, by decide, by decide,
    (C1_path_spec T exLvlW 1 2 id id ((0 : ℤ), (0 : ℤ)) ((0 : ℤ), (1 : ℤ))
      (fun l => List.Perm.refl l) (fun l => List.Perm.refl l)
      (by decide) (by decide)).2 (by decide)⟩

/-! ## Level map update: `Agent.update_level`, and `Agent.search` -/

/-- Glyph groups used by the three `elif` branches of `update_level`:
`[G.FLOOR, G.CORRIDOR, G.STAIR_UP, G.STAIR_DOWN, G.DOOR_OPENED]`. -/
def walkGroup (t : GlyphTable) (g : Int) : Bool :=
  t.floorG g || t.corridorG g || t.stairUpG g || t.stairDownG g || t.doorOpenedG g

/-- `[G.WALL, G.DOOR_CLOSED]`. -/
def seenGroup (t : GlyphTable) (g : Int) : Bool :=
  t.wallG g || t.doorClosedG g

/-- `[G.MONS, G.PETS]`. -/
def monGroup (t : GlyphTable) (g : Int) : Bool :=
  t.monG g || t.petG g

/-- `Agent.update_level`, pointwise.  The per-cell loop marks
walkable+seen+object for the walkable glyph group, seen+object for
walls/closed doors, and seen+walkable (object untouched) for creatures; the
final loop marks seen+object on the agent's neighbours whose current glyph is
still unrevealed stone (the loop order is a shuffle of `neighborsList`, but
its effect is pointwise, so membership suffices). -/
def updateLevel (t : GlyphTable) (H W : ℕ) (lv : Level) (glyphs : Cell → Int)
    (pos : Cell) : Level :=
  { walkable := fun c => lv.walkable c ||
      (inBounds H W c && (walkGroup t (glyphs c) ||
        (!walkGroup t (glyphs c) && !seenGroup t (glyphs c) && monGroup t (glyphs c))))
    seen := fun c => lv.seen c ||
      (inBounds H W c && (walkGroup t (glyphs c) || seenGroup t (glyphs c) ||
        monGroup t (glyphs c))) ||
      (decide (c ∈ neighborsList H W pos true) && t.stoneG (glyphs c))
    objects := fun c =>
      if (inBounds H W c && (walkGroup t (glyphs c) ||
            (!walkGroup t (glyphs c) && seenGroup t (glyphs c)))) ||
          (decide (c ∈ neighborsList H W pos true) && t.stoneG (glyphs c))
        then glyphs c else lv.objects c
    search_count := lv.search_count }

/-- `Agent.search` after the action step: increment `search_count` at the
agent's current cell. -/
def searchInc (lv : Level) (pos : Cell) : Level :=
  { walkable := lv.walkable
    seen := lv.seen
    objects := lv.objects
    search_count := fun c => if c = pos then lv.search_count c + 1 else lv.search_count c }

/-- C7: a search action executed at cell `pos` increments `search_count`
exactly at `pos` by one and leaves every other cell's count and all other
grids unchanged, and the map-update operation — the only other operation that
writes to a `Level` — never changes `search_count` anywhere. -/
theorem C7_search_count_frame :
    ∀ (t : GlyphTable) (H W : ℕ) (lv : Level) (glyphs : Cell → Int) (pos c : Cell),
      (searchInc lv pos).search_count c =
        (if c = pos then lv.search_count c + 1 else lv.search_count c) ∧
      (searchInc lv pos).walkable = lv.walkable ∧
      (searchInc lv pos).seen = lv.seen ∧
      (searchInc lv pos).objects = lv.objects ∧
      (updateLevel t H W lv glyphs pos).search_count c = lv.search_count c := by
  intro t H W lv glyphs pos c
  exact ⟨rfl, rfl, rfl, rfl, rfl⟩

/-- The level operations a run performs on a `Level`: a map update from an
observation, or a search at the agent's cell. -/
inductive AgentOp where
  | upd (glyphs : Cell → Int) (pos : Cell)
  | sInc (pos : Cell)

/-- Apply one operation. -/
def applyOp (t : GlyphTable) (H W : ℕ) (lv : Level) : AgentOp → Level
  | .upd glyphs pos => updateLevel t H W lv glyphs pos
  | .sInc pos => searchInc lv pos

/-- A run: the level created by `Level.__init__` followed by any sequence of
operations. -/
def runOps (t : GlyphTable) (H W : ℕ) (ops : List AgentOp) (lv : Level) : Level :=
  ops.foldl (applyOp t H W) lv

/-- The C10 invariant for one level. -/
def WalkableSeen (lv : Level) : Prop :=
  ∀ c : Cell, lv.walkable c = true → lv.seen c = true

lemma walkableSeen_applyOp {t : GlyphTable} {H W : ℕ} {lv : Level}
    (h : WalkableSeen lv) (op : AgentOp) : WalkableSeen (applyOp t H W lv op) := by
  cases op with
  | sInc pos => exact h
  | upd glyphs pos =>
    intro c hc
    simp only [applyOp, updateLevel, Bool.or_eq_true, Bool.and_eq_true] at hc ⊢
    rcases hc with hold | ⟨hb, hg⟩
    · exact Or.inl (Or.inl (h c hold))
    · refine Or.inl (Or.inr ⟨hb, ?_⟩)
      rcases hg with hw | ⟨⟨-, -⟩, hm⟩
      · exact Or.inl (Or.inl hw)
      · exact Or.inr hm

lemma walkableSeen_runOps {t : GlyphTable} {H W : ℕ} :
    ∀ (ops : List AgentOp) (lv : Level),
      WalkableSeen lv → WalkableSeen (runOps t H W ops lv) := by
  intro ops
  induction ops with
  | nil => intro lv h; exact h
  | cons op ops ih =>
    intro lv h
    exact ih (applyOp t H W lv op) (walkableSeen_applyOp h op)

/-- C10: on a freshly created level and after any sequence of map updates and
searches, every walkable cell is seen. -/
theorem C10_walkable_imp_seen (t : GlyphTable) (H W : ℕ) (ops : List AgentOp) (c : Cell)
    (h : (runOps t H W ops Level.init).walkable c = true) :
    (runOps t H W ops Level.init).seen c = true :=
  walkableSeen_runOps ops Level.init (fun _ hw => by simp [Level.init] at hw) c h

/-- Witness: C10 applied after one concrete update that makes `(0,0)` walkable
(floor glyph 1 at a 1×1 level). -/
theorem C10_walkable_imp_seen_witness :
    (runOps T 1 1 [AgentOp.upd (fun _ => 1) ((0 : ℤ), (0 : ℤ))] Level.init).walkable
        ((0 : ℤ), (0 : ℤ)) = true ∧
    (runOps T 1 1 [AgentOp.upd (fun _ => 1) ((0 : ℤ), (0 : ℤ))] Level.init).seen
        ((0 : ℤ), (0 : ℤ)) = true :=
  ⟨by decide, C10_walkable_imp_seen T 1 1 [AgentOp.upd (fun _ => 1) ((0 : ℤ), (0 : ℤ))]
    ((0 : ℤ), (0 : ℤ)) (by decide)⟩

/-! ## Search strategy: the priority grid of `Agent.search1` -/

/-- The per-cell priority of `search1`, translated statement by statement:
`-inf` (`⊥`) for non-walkable or unreachable cells, else the base `-20`,
minus distance, minus `search_count² · 10`, plus the corridor/door bonuses on
the cell's remembered object, then one `+=` per neighbour in the fixed
(`shuffle=False`) order adding the stone/wall bonuses on the neighbour's
remembered object. -/
def prio (t : GlyphTable) (lv : Level) (H W : ℕ) (dis : Cell → Int) (c : Cell) :
    WithBot ℤ :=
  if !lv.walkable c || (dis c == -1) then ⊥
  else ((neighborsList H W c true).foldl
      (fun a p => a + ((if t.stoneG (lv.objects p) then 1 else 0) * 40 +
        (if t.wallG (lv.objects p) then 1 else 0) * 20))
      (-20 - dis c - (lv.search_count c : ℤ) ^ 2 * 10 +
        ((if t.corridorG (lv.objects c) then 1 else 0) * 15 +
          (if t.doors (lv.objects c) then 1 else 0) * 80)) : ℤ)

/-- `prio.max()`. -/
def prioMax (t : GlyphTable) (lv : Level) (H W : ℕ) (dis : Cell → Int) : WithBot ℤ :=
  ((cellsList H W).map (prio t lv H W dis)).foldl max ⊥

/-- `(prio == prio.max()).nonzero()` and taking entry 0: the first cell in
row-major order whose priority equals the maximum. -/
def search1Target (t : GlyphTable) (lv : Level) (H W : ℕ) (dis : Cell → Int) :
    Option Cell :=
  ((cellsList H W).filter
    (fun c => decide (prio t lv H W dis c = prioMax t lv H W dis))).head?

/-- The claim's formula, written as the claim words it: the neighbour stone
bonus is awarded to neighbours that are unseen and whose CURRENT glyph is
stone. -/
def claimPrio (t : GlyphTable) (lv : Level) (H W : ℕ) (glyphs : Cell → Int)
    (dis : Cell → Int) (c : Cell) : WithBot ℤ :=
  if !lv.walkable c || (dis c == -1) then ⊥
  else ((-20 - dis c - (lv.search_count c : ℤ) ^ 2 * 10 +
      (if t.corridorG (lv.objects c) then 15 else 0) +
      (if t.doors (lv.objects c) then 80 else 0) +
      40 * ((neighborsList H W c true).countP
        (fun p => !lv.seen p && t.stoneG (glyphs p)) : ℤ) +
      20 * ((neighborsList H W c true).countP
        (fun p => t.wallG (lv.objects p)) : ℤ)) : ℤ)

/-- The formula the code actually computes, written independently of the fold:
the stone bonus is awarded to neighbours whose RECORDED object glyph is stone
(such a cell has necessarily been seen). -/
def specPrio (t : GlyphTable) (lv : Level) (H W : ℕ) (dis : Cell → Int) (c : Cell) :
    WithBot ℤ :=
  if lv.walkable c = true ∧ dis c ≠ -1 then
    ((-20 - dis c - 10 * (lv.search_count c : ℤ) ^ 2 +
      (if t.corridorG (lv.objects c) then 15 else 0) +
      (if t.doors (lv.objects c) then 80 else 0) +
      40 * ((neighborsList H W c true).countP
        (fun p => t.stoneG (lv.objects p)) : ℤ) +
      20 * ((neighborsList H W c true).countP
        (fun p => t.wallG (lv.objects p)) : ℤ)) : ℤ)
  else ⊥

lemma foldl_add_eq (f : Cell → ℤ) :
    ∀ (l : List Cell) (a : ℤ), l.foldl (fun a p => a + f p) a = a + (l.map f).sum := by
  intro l
  induction l with
  | nil => intro a; simp
  | cons p l ih =>
    intro a
    rw [List.foldl_cons, ih, List.map_cons, List.sum_cons]
    ring

lemma sum_bonus_eq (t : GlyphTable) (lv : Level) :
    ∀ l : List Cell,
      (l.map (fun p => (if t.stoneG (lv.objects p) then 1 else 0) * 40 +
        (if t.wallG (lv.objects p) then 1 else 0) * 20)).sum =
      40 * (l.countP (fun p => t.stoneG (lv.objects p)) : ℤ) +
        20 * (l.countP (fun p => t.wallG (lv.objects p)) : ℤ) := by
  intro l
  induction l with
  | nil => simp
  | cons p l ih =>
    rw [List.map_cons, List.sum_cons, ih, List.countP_cons, List.countP_cons]
    push_cast
    by_cases h1 : t.stoneG (lv.objects p) = true <;>
      by_cases h2 : t.wallG (lv.objects p) = true <;>
        simp [h1, h2] <;> ring

lemma prio_eq_specPrio (t : GlyphTable) (lv : Level) (H W : ℕ) (dis : Cell → Int)
    (c : Cell) : prio t lv H W dis c = specPrio t lv H W dis c := by
  rw [prio, specPrio]
  by_cases hw : lv.walkable c = true
  · by_cases hd : dis c = -1
    · have hg : (!lv.walkable c || (dis c == -1)) = true := by simp [hw, hd]
      rw [if_pos hg, if_neg (fun h => h.2 hd)]
    · have hg : ¬ (!lv.walkable c || (dis c == -1)) = true := by simp [hw, hd]
      have hcond : lv.walkable c = true ∧ dis c ≠ -1 := ⟨hw, hd⟩
      rw [if_neg hg, if_pos hcond]
      congr 1
      rw [foldl_add_eq, sum_bonus_eq]
      split_ifs <;> push_cast <;> ring
  · have hg : (!lv.walkable c || (dis c == -1)) = true := by
      simp only [Bool.or_eq_true, Bool.not_eq_true']
      exact Or.inl (by simp only [Bool.not_eq_true] at hw; exact hw)
    rw [if_pos hg, if_neg (fun h => hw h.1)]

lemma foldl_max_le {l : List (WithBot ℤ)} {b : WithBot ℤ} :
    b ≤ l.foldl max b ∧ ∀ x ∈ l, x ≤ l.foldl max b := by
  induction l generalizing b with
  | nil => exact ⟨le_refl b, by simp⟩
  | cons a l ih =>
    rw [List.foldl_cons]
    refine ⟨le_trans (le_max_left b a) ih.1, ?_⟩
    intro x hx
    rcases List.mem_cons.1 hx with rfl | hx'
    · exact le_trans (le_max_right b x) ih.1
    · exact ih.2 x hx'

lemma foldl_max_mem {l : List (WithBot ℤ)} {b : WithBot ℤ} :
    l.foldl max b = b ∨ l.foldl max b ∈ l := by
  induction l generalizing b with
  | nil => exact Or.inl rfl
  | cons a l ih =>
    rw [List.foldl_cons]
    rcases @ih (max b a) with h | h
    · rcases max_choice b a with hm | hm
      · exact Or.inl (by rw [h, hm])
      · exact Or.inr (by rw [h, hm]; exact List.mem_cons_self a l)
    · exact Or.inr (List.mem_cons_of_mem a h)

lemma prioMax_attained (t : GlyphTable) (lv : Level) (H W : ℕ) (dis : Cell → Int)
    (hH : 0 < H) (hW : 0 < W) :
    ∃ c ∈ cellsList H W, prio t lv H W dis c = prioMax t lv H W dis := by
  have hne : ((0 : ℤ), (0 : ℤ)) ∈ cellsList H W := by
    rw [mem_cellsList]
    simp only [inBounds, Bool.and_eq_true, decide_eq_true_eq]
    refine ⟨⟨⟨le_refl 0, ?_⟩, le_refl 0⟩, ?_⟩ <;> exact_mod_cast by omega
  rcases @foldl_max_mem ((cellsList H W).map (prio t lv H W dis)) ⊥ with h | h
  · refine ⟨((0 : ℤ), (0 : ℤ)), hne, ?_⟩
    have hle := (@foldl_max_le ((cellsList H W).map (prio t lv H W dis)) ⊥).2
      (prio t lv H W dis ((0 : ℤ), (0 : ℤ))) (List.mem_map_of_mem _ hne)
    rw [h] at hle
    rw [prioMax, h]
    exact le_bot_iff.1 hle
  · rw [List.mem_map] at h
    obtain ⟨c, hc, hval⟩ := h
    exact ⟨c, hc, hval⟩

lemma filter_head_spec {α : Type} (p : α → Bool) :
    ∀ (l : List α) (c : α), (l.filter p).head? = some c →
      p c = true ∧ ∃ l1 l2, l = l1 ++ c :: l2 ∧ ∀ b ∈ l1, p b = false := by
  intro l
  induction l with
  | nil => intro c h; simp at h
  | cons a l ih =>
    intro c h
    by_cases hpa : p a = true
    · rw [List.filter_cons_of_pos hpa] at h
      simp only [List.head?_cons, Option.some.injEq] at h
      subst h
      exact ⟨hpa, [], l, rfl, by simp⟩
    · rw [List.filter_cons_of_neg (by simpa using hpa)] at h
      obtain ⟨hpc, l1, l2, hl, hprev⟩ := ih c h
      refine ⟨hpc, a :: l1, l2, by rw [hl]; rfl, ?_⟩
      intro b hb
      rcases List.mem_cons.1 hb with rfl | hb'
      · simpa using hpa
      · exact hprev b hb'

/-- 1×2 level for the C3 counterexample: the agent cell `(0,0)` is walkable
floor; `(0,1)` is unseen with recorded object `-1` while its current glyph is
stone. -/
def exLvl3 : Level :=
  { walkable := fun c => decide (c = ((0 : ℤ), (0 : ℤ)))
    seen := fun c => decide (c = ((0 : ℤ), (0 : ℤ)))
    objects := fun c => if c = ((0 : ℤ), (0 : ℤ)) then 1 else -1
    search_count := fun _ => 0 }

/-- Glyph grid for the C3 counterexample. -/
def exGly3 : Cell → Int := fun c => if c = ((0 : ℤ), (0 : ℤ)) then 1 else 0

/-- C3: at `(0,0)` of `exLvl3` the neighbour `(0,1)` is unseen with current
glyph stone, so the claim's formula awards `+40` and scores `20`; the code
tests the neighbour's RECORDED object (`-1`, not stone) and scores `-20`.
The computed priority does not equal the claimed formula. -/
theorem C3_counterexample :
    prio T exLvl3 1 2 (bfs T exLvl3 1 2 id ((0 : ℤ), (0 : ℤ))) ((0 : ℤ), (0 : ℤ)) =
      ((-20 : ℤ) : WithBot ℤ) ∧
    claimPrio T exLvl3 1 2 exGly3 (bfs T exLvl3 1 2 id ((0 : ℤ), (0 : ℤ)))
      ((0 : ℤ), (0 : ℤ)) = ((20 : ℤ) : WithBot ℤ) ∧
    prio T exLvl3 1 2 (bfs T exLvl3 1 2 id ((0 : ℤ), (0 : ℤ))) ((0 : ℤ), (0 : ℤ)) ≠
      claimPrio T exLvl3 1 2 exGly3 (bfs T exLvl3 1 2 id ((0 : ℤ), (0 : ℤ)))
        ((0 : ℤ), (0 : ℤ)) := by
  refine ⟨by decide, by decide, by decide⟩

/-- C3 (amended: the `+40` neighbour bonus tests the neighbour's recorded
object glyph for stone — which entails the neighbour has been seen — not
"unseen stone"): the computed priority equals the stated formula, every cell
scores at most the maximum, and the selected target is the first row-major
cell attaining the maximum. -/
theorem C3_search_prio (t : GlyphTable) (lv : Level) (H W : ℕ) (dis : Cell → Int)
    (hH : 0 < H) (hW : 0 < W) :
    (∀ c, prio t lv H W dis c = specPrio t lv H W dis c) ∧
    (∀ b ∈ cellsList H W, prio t lv H W dis b ≤ prioMax t lv H W dis) ∧
    (∃ c, search1Target t lv H W dis = some c ∧
      prio t lv H W dis c = prioMax t lv H W dis ∧
      ∃ l1 l2, cellsList H W = l1 ++ c :: l2 ∧
        ∀ b ∈ l1, prio t lv H W dis b ≠ prioMax t lv H W dis) := by
  refine ⟨prio_eq_specPrio t lv H W dis, ?_, ?_⟩
  · intro b hb
    exact (@foldl_max_le ((cellsList H W).map (prio t lv H W dis)) ⊥).2
      (prio t lv H W dis b) (List.mem_map_of_mem _ hb)
  · obtain ⟨c0, hc0, hval⟩ := prioMax_attained t lv H W dis hH hW
    have hfil : ((cellsList H W).filter
        (fun c => decide (prio t lv H W dis c = prioMax t lv H W dis))) ≠ [] := by
      intro h
      have := List.filter_eq_nil_iff.1 h c0 hc0
      simp only [decide_eq_true_eq] at this
      exact this hval
    cases hcase : ((cellsList H W).filter
        (fun c => decide (prio t lv H W dis c = prioMax t lv H W dis))) with
    | nil => exact absurd hcase hfil
    | cons a l =>
      have hc : search1Target t lv H W dis = some a := by
        rw [search1Target, hcase]
        rfl
      obtain ⟨hp, l1, l2, hdecomp, hprev⟩ := filter_head_spec
        (fun c => decide (prio t lv H W dis c = prioMax t lv H W dis))
        (cellsList H W) a (by rw [hcase]; rfl)
      refine ⟨a, hc, by simpa using hp, l1, l2, hdecomp, ?_⟩
      intro b hb
      have := hprev b hb
      simpa using this

/-- Witness: C3_search_prio applied to the counterexample level. -/
theorem C3_search_prio_witness :
    0 < 1 ∧ 0 < 2 ∧
    (∃ c, search1Target T exLvl3 1 2 (bfs T exLvl3 1 2 id ((0 : ℤ), (0 : ℤ))) = some c ∧
      prio T exLvl3 1 2 (bfs T exLvl3 1 2 id ((0 : ℤ), (0 : ℤ))) c =
        prioMax T exLvl3 1 2 (bfs T exLvl3 1 2 id ((0 : ℤ), (0 : ℤ))) ∧
      ∃ l1 l2, cellsList 1 2 = l1 ++ c :: l2 ∧
        ∀ b ∈ l1, prio T exLvl3 1 2 (bfs T exLvl3 1 2 id ((0 : ℤ), (0 : ℤ))) b ≠
          prioMax T exLvl3 1 2 (bfs T exLvl3 1 2 id ((0 : ℤ), (0 : ℤ)))) :=
  ⟨by decide, by decide,
    (C3_search_prio T exLvl3 1 2 (bfs T exLvl3 1 2 id ((0 : ℤ), (0 : ℤ)))
      (by decide) (by decide)).2.2⟩

/-! ## Explore strategy: the frontier-target selection of `Agent.explore1` -/

/-- The `to_explore` flag of `explore1`: the cell is reachable (`dis != -1`)
and some 8-neighbour is unseen with current glyph stone, or some orthogonal
neighbour's current glyph is a closed door.  The source iterates shuffled
neighbour lists but only sets a boolean, so the result only depends on
membership. -/
def toExplore (t : GlyphTable) (lv : Level) (H W : ℕ) (glyphs : Cell → Int)
    (dis : Cell → Int) (sh : List Cell → List Cell) (c : Cell) : Bool :=
  (dis c != -1) &&
    ((sh (neighborsList H W c true)).any (fun p => !lv.seen p && t.stoneG (glyphs p)) ||
      (sh (neighborsList H W c false)).any (fun p => t.doorClosedG (glyphs p)))

/-- One entry of `(dis * to_explore - 1).astype(np.uint16)`: int16 arithmetic
then a cast to uint16, i.e. a representative modulo 2^16 in `[0, 65535]`. -/
def exploreVal (t : GlyphTable) (lv : Level) (H W : ℕ) (glyphs : Cell → Int)
    (dis : Cell → Int) (sh : List Cell → List Cell) (c : Cell) : ℤ :=
  ((if toExplore t lv H W glyphs dis sh c then dis c else 0) - 1).emod 65536

/-- `.min()` of that uint16 grid.  Every entry lies in `[0, 65535]`, so
folding with the initial value 65535 computes the same minimum. -/
def exploreMin (t : GlyphTable) (lv : Level) (H W : ℕ) (glyphs : Cell → Int)
    (dis : Cell → Int) (sh : List Cell → List Cell) : ℤ :=
  ((cellsList H W).map (exploreVal t lv H W glyphs dis sh)).foldl min 65535

/-- The target of `explore1`: numpy evaluates `min + 1` in uint16 arithmetic
(wrapping 65535 to 0), then takes the row-major-first cell with that distance
and the flag set; an empty candidate list is "no applicable action". -/
def exploreTarget (t : GlyphTable) (lv : Level) (H W : ℕ) (glyphs : Cell → Int)
    (dis : Cell → Int) (sh : List Cell → List Cell) : Option Cell :=
  ((cellsList H W).filter (fun c =>
    (dis c == (exploreMin t lv H W glyphs dis sh + 1).emod 65536) &&
      toExplore t lv H W glyphs dis sh c)).head?

lemma foldl_min_le {l : List ℤ} {b : ℤ} :
    l.foldl min b ≤ b ∧ ∀ x ∈ l, l.foldl min b ≤ x := by
  induction l generalizing b with
  | nil => exact ⟨le_refl b, by simp⟩
  | cons a l ih =>
    rw [List.foldl_cons]
    refine ⟨le_trans ih.1 (min_le_left b a), ?_⟩
    intro x hx
    rcases List.mem_cons.1 hx with rfl | hx'
    · exact le_trans ih.1 (min_le_right b x)
    · exact ih.2 x hx'

lemma foldl_min_mem {l : List ℤ} {b : ℤ} :
    l.foldl min b = b ∨ l.foldl min b ∈ l := by
  induction l generalizing b with
  | nil => exact Or.inl rfl
  | cons a l ih =>
    rw [List.foldl_cons]
    rcases @ih (min b a) with h | h
    · rcases min_choice b a with hm | hm
      · exact Or.inl (by rw [h, hm])
      · exact Or.inr (by rw [h, hm]; exact List.mem_cons_self a l)
    · exact Or.inr (List.mem_cons_of_mem a h)

/-- 2×2 state for the C4 counterexample.  The agent cell `(0,0)` and `(0,1)`
are walkable; `(1,1)` is unseen. -/
def exLvl4 : Level :=
  { walkable := fun c => decide (c = ((0 : ℤ), (0 : ℤ)) ∨ c = ((0 : ℤ), (1 : ℤ)))
    seen := fun c => decide (c ≠ ((1 : ℤ), (1 : ℤ)))
    objects := fun c =>
      if c = ((1 : ℤ), (0 : ℤ)) then 4 else if c = ((1 : ℤ), (1 : ℤ)) then -1 else 1
    search_count := fun _ => 0 }

/-- Current glyphs for the C4 counterexample: a closed door (4) below the
agent, unrevealed stone (0) at `(1,1)`, floor elsewhere. -/
def exGly4 : Cell → Int := fun c =>
  if c = ((1 : ℤ), (0 : ℤ)) then 4 else if c = ((1 : ℤ), (1 : ℤ)) then 0 else 1

/-- C4: in `exLvl4` the agent cell `(0,0)` is a frontier cell (an orthogonal
closed door) at distance 0, and `(0,1)` is a frontier cell (unseen stone
neighbour) at distance 1, yet `explore1` selects `(0,1)`: a frontier cell of
distance 0 contributes `0 - 1 = 65535` to the uint16 minimum, so the minimum
over frontier cells of positive distance wins.  The claim's
"minimum-distance frontier cell" fails on the code. -/
theorem C4_counterexample :
    exploreTarget T exLvl4 2 2 exGly4 (bfs T exLvl4 2 2 id ((0 : ℤ), (0 : ℤ))) id =
      some ((0 : ℤ), (1 : ℤ)) ∧
    toExplore T exLvl4 2 2 exGly4 (bfs T exLvl4 2 2 id ((0 : ℤ), (0 : ℤ))) id
      ((0 : ℤ), (0 : ℤ)) = true ∧
    bfs T exLvl4 2 2 id ((0 : ℤ), (0 : ℤ)) ((0 : ℤ), (0 : ℤ)) = 0 ∧
    bfs T exLvl4 2 2 id ((0 : ℤ), (0 : ℤ)) ((0 : ℤ), (1 : ℤ)) = 1 := by
  refine ⟨by decide, by decide, by decide, by decide⟩

/-- C4 (amended): writing "frontier" for `to_explore`, the selection is:
if some frontier cell has positive distance, the target is the row-major-first
frontier cell of minimum POSITIVE distance — a frontier cell at distance 0
(the agent's own cell) is skipped by the minimum because its uint16 value
wraps to 65535; otherwise, if a frontier cell exists (necessarily at distance
0), that cell is targeted (the uint16 minimum 65535 wraps back to distance 0);
otherwise there is no applicable action. -/
theorem C4_explore_select (t : GlyphTable) (lv : Level) (H W : ℕ)
    (glyphs : Cell → Int) (dis : Cell → Int) (sh : List Cell → List Cell)
    (hb : ∀ c ∈ cellsList H W, -1 ≤ dis c ∧ dis c ≤ 32766) :
    ((∃ c0 ∈ cellsList H W, toExplore t lv H W glyphs dis sh c0 = true ∧ 1 ≤ dis c0) →
      ∃ c, exploreTarget t lv H W glyphs dis sh = some c ∧
        toExplore t lv H W glyphs dis sh c = true ∧ 1 ≤ dis c ∧
        (∀ b ∈ cellsList H W, toExplore t lv H W glyphs dis sh b = true → 1 ≤ dis b →
          dis c ≤ dis b) ∧
        ∃ l1 l2, cellsList H W = l1 ++ c :: l2 ∧
          ∀ b ∈ l1, ¬(dis b = dis c ∧ toExplore t lv H W glyphs dis sh b = true)) ∧
    ((∀ c ∈ cellsList H W, ¬(toExplore t lv H W glyphs dis sh c = true ∧ 1 ≤ dis c)) →
      (∃ c0 ∈ cellsList H W, toExplore t lv H W glyphs dis sh c0 = true) →
      ∃ c, exploreTarget t lv H W glyphs dis sh = some c ∧
        toExplore t lv H W glyphs dis sh c = true ∧ dis c = 0 ∧
        ∃ l1 l2, cellsList H W = l1 ++ c :: l2 ∧
          ∀ b ∈ l1, ¬(dis b = 0 ∧ toExplore t lv H W glyphs dis sh b = true)) ∧
    ((∀ c ∈ cellsList H W, toExplore t lv H W glyphs dis sh c = false) →
      exploreTarget t lv H W glyphs dis sh = none) := by
  have hval : ∀ c ∈ cellsList H W, exploreVal t lv H W glyphs dis sh c =
      if toExplore t lv H W glyphs dis sh c = true ∧ 1 ≤ dis c then dis c - 1
      else 65535 := by
    intro c hc
    rw [exploreVal]
    by_cases hf : toExplore t lv H W glyphs dis sh c = true
    · by_cases h1 : 1 ≤ dis c
      · rw [if_pos hf, if_pos ⟨hf, h1⟩]
        refine Int.emod_eq_of_lt (by omega) (by have := (hb c hc).2; omega)
      · rw [if_pos hf, if_neg (fun h => h1 h.2)]
        have hne : dis c ≠ -1 := by
          have := hf
          rw [toExplore, Bool.and_eq_true, bne_iff_ne] at this
          exact this.1
        have h0 : dis c = 0 := by have := (hb c hc).1; omega
        rw [h0]
        decide
    · rw [if_neg hf, if_neg (fun h => hf h.1)]
      decide
  refine ⟨?_, ?_, ?_⟩
  · rintro ⟨c0, hc0, hf0, h10⟩
    have hminle : exploreMin t lv H W glyphs dis sh ≤ dis c0 - 1 := by
      have := (@foldl_min_le ((cellsList H W).map (exploreVal t lv H W glyphs dis sh)) 65535).2
        (exploreVal t lv H W glyphs dis sh c0) (List.mem_map_of_mem _ hc0)
      rw [hval c0 hc0, if_pos ⟨hf0, h10⟩] at this
      exact this
    have hminmem : ∃ cm ∈ cellsList H W,
        toExplore t lv H W glyphs dis sh cm = true ∧ 1 ≤ dis cm ∧
        exploreMin t lv H W glyphs dis sh = dis cm - 1 := by
      rcases @foldl_min_mem ((cellsList H W).map (exploreVal t lv H W glyphs dis sh)) 65535
        with h | h
      · exfalso
        rw [exploreMin] at hminle
        rw [h] at hminle
        have := (hb c0 hc0).2
        omega
      · rw [List.mem_map] at h
        obtain ⟨cm, hcm, hvm⟩ := h
        rw [hval cm hcm] at hvm
        by_cases hcase : toExplore t lv H W glyphs dis sh cm = true ∧ 1 ≤ dis cm
        · rw [if_pos hcase] at hvm
          exact ⟨cm, hcm, hcase.1, hcase.2, (by rw [exploreMin, ← hvm])⟩
        · exfalso
          rw [if_neg hcase] at hvm
          rw [exploreMin] at hminle
          rw [← hvm] at hminle
          have := (hb c0 hc0).2
          omega
    obtain ⟨cm, hcm, hfm, h1m, hem⟩ := hminmem
    have htv : (exploreMin t lv H W glyphs dis sh + 1).emod 65536 = dis cm := by
      rw [hem]
      have h1 : dis cm - 1 + 1 = dis cm := by ring
      rw [h1]
      exact Int.emod_eq_of_lt (by omega) (by have := (hb cm hcm).2; omega)
    have hpredcm : ((dis cm == (exploreMin t lv H W glyphs dis sh + 1).emod 65536) &&
        toExplore t lv H W glyphs dis sh cm) = true := by
      rw [htv]
      simp [hfm]
    have hfil : ((cellsList H W).filter (fun c =>
        (dis c == (exploreMin t lv H W glyphs dis sh + 1).emod 65536) &&
          toExplore t lv H W glyphs dis sh c)) ≠ [] := by
      intro h
      exact absurd hpredcm (by simpa using List.filter_eq_nil_iff.1 h cm hcm)
    cases hcase : ((cellsList H W).filter (fun c =>
        (dis c == (exploreMin t lv H W glyphs dis sh + 1).emod 65536) &&
          toExplore t lv H W glyphs dis sh c)) with
    | nil => exact absurd hcase hfil
    | cons a l =>
      obtain ⟨hpa, l1, l2, hdecomp, hprev⟩ := filter_head_spec _ (cellsList H W) a
        (by rw [hcase]; rfl)
      rw [Bool.and_eq_true, beq_iff_eq, htv] at hpa
      refine ⟨a, (by rw [exploreTarget, hcase]; rfl), hpa.2, (by omega), ?_, l1, l2, hdecomp, ?_⟩
      · intro b hbmem hfb h1b
        have hminleb := (@foldl_min_le
          ((cellsList H W).map (exploreVal t lv H W glyphs dis sh)) 65535).2
          (exploreVal t lv H W glyphs dis sh b) (List.mem_map_of_mem _ hbmem)
        rw [hval b hbmem, if_pos ⟨hfb, h1b⟩] at hminleb
        have hmb : exploreMin t lv H W glyphs dis sh ≤ dis b - 1 := hminleb
        rw [hpa.1]
        omega
      · intro b hb1
        have := hprev b hb1
        rw [Bool.and_eq_false_iff] at this
        rintro ⟨hdb, hfb⟩
        rcases this with h | h
        · rw [htv, ← hpa.1] at h
          exact absurd hdb (by simpa using h)
        · exact absurd hfb (by simpa using h)
  · intro hno hex
    obtain ⟨c0, hc0, hf0⟩ := hex
    have hd0 : dis c0 = 0 := by
      have hne : dis c0 ≠ -1 := by
        have := hf0
        rw [toExplore, Bool.and_eq_true, bne_iff_ne] at this
        exact this.1
      have h1 := hb c0 hc0
      have h2 := hno c0 hc0
      by_cases h : 1 ≤ dis c0
      · exact absurd ⟨hf0, h⟩ h2
      · omega
    have hallval : ∀ c ∈ cellsList H W,
        exploreVal t lv H W glyphs dis sh c = 65535 := by
      intro c hc
      rw [hval c hc, if_neg (hno c hc)]
    have hmin : exploreMin t lv H W glyphs dis sh = 65535 := by
      rw [exploreMin]
      have hle := (@foldl_min_le ((cellsList H W).map
        (exploreVal t lv H W glyphs dis sh)) 65535).1
      rcases @foldl_min_mem ((cellsList H W).map
        (exploreVal t lv H W glyphs dis sh)) 65535 with h | h
      · exact h
      · rw [List.mem_map] at h
        obtain ⟨cm, hcm, hvm⟩ := h
        rw [← hvm, hallval cm hcm]
    have htv : (exploreMin t lv H W glyphs dis sh + 1).emod 65536 = 0 := by
      rw [hmin]
      decide
    have hpredc0 : ((dis c0 == (exploreMin t lv H W glyphs dis sh + 1).emod 65536) &&
        toExplore t lv H W glyphs dis sh c0) = true := by
      rw [htv, hd0]
      simp [hf0]
    have hfil : ((cellsList H W).filter (fun c =>
        (dis c == (exploreMin t lv H W glyphs dis sh + 1).emod 65536) &&
          toExplore t lv H W glyphs dis sh c)) ≠ [] := by
      intro h
      exact absurd hpredc0 (by simpa using List.filter_eq_nil_iff.1 h c0 hc0)
    cases hcase : ((cellsList H W).filter (fun c =>
        (dis c == (exploreMin t lv H W glyphs dis sh + 1).emod 65536) &&
          toExplore t lv H W glyphs dis sh c)) with
    | nil => exact absurd hcase hfil
    | cons a l =>
      obtain ⟨hpa, l1, l2, hdecomp, hprev⟩ := filter_head_spec _ (cellsList H W) a
        (by rw [hcase]; rfl)
      rw [Bool.and_eq_true, beq_iff_eq, htv] at hpa
      refine ⟨a, (by rw [exploreTarget, hcase]; rfl), hpa.2, hpa.1, l1, l2, hdecomp, ?_⟩
      intro b hb1
      have := hprev b hb1
      rw [Bool.and_eq_false_iff] at this
      rintro ⟨hdb, hfb⟩
      rcases this with h | h
      · rw [htv] at h
        exact absurd hdb (by simpa using h)
      · exact absurd hfb (by simpa using h)
  · intro hnone
    rw [exploreTarget]
    have : ((cellsList H W).filter (fun c =>
        (dis c == (exploreMin t lv H W glyphs dis sh + 1).emod 65536) &&
          toExplore t lv H W glyphs dis sh c)) = [] := by
      rw [List.filter_eq_nil_iff]
      intro c hc
      rw [Bool.and_eq_true, not_and]
      intro h1
      rw [hnone c hc]
      exact Bool.false_ne_true
    rw [this]
    rfl

/-- Witness: the first branch of C4_explore_select on the counterexample
state, which indeed has a frontier cell of positive distance. -/
theorem C4_explore_select_witness :
    (∀ c ∈ cellsList 2 2, -1 ≤ bfs T exLvl4 2 2 id ((0 : ℤ), (0 : ℤ)) c ∧
      bfs T exLvl4 2 2 id ((0 : ℤ), (0 : ℤ)) c ≤ 32766) ∧
    (∃ c0 ∈ cellsList 2 2,
      toExplore T exLvl4 2 2 exGly4 (bfs T exLvl4 2 2 id ((0 : ℤ), (0 : ℤ))) id c0 = true ∧
      1 ≤ bfs T exLvl4 2 2 id ((0 : ℤ), (0 : ℤ)) c0) ∧
    (∃ c, exploreTarget T exLvl4 2 2 exGly4 (bfs T exLvl4 2 2 id ((0 : ℤ), (0 : ℤ))) id =
        some c ∧
      toExplore T exLvl4 2 2 exGly4 (bfs T exLvl4 2 2 id ((0 : ℤ), (0 : ℤ))) id c = true ∧
      1 ≤ bfs T exLvl4 2 2 id ((0 : ℤ), (0 : ℤ)) c ∧
      (∀ b ∈ cellsList 2 2,
        toExplore T exLvl4 2 2 exGly4 (bfs T exLvl4 2 2 id ((0 : ℤ), (0 : ℤ))) id b = true →
        1 ≤ bfs T exLvl4 2 2 id ((0 : ℤ), (0 : ℤ)) b →
        bfs T exLvl4 2 2 id ((0 : ℤ), (0 : ℤ)) c ≤ bfs T exLvl4 2 2 id ((0 : ℤ), (0 : ℤ)) b) ∧
      ∃ l1 l2, cellsList 2 2 = l1 ++ c :: l2 ∧
        ∀ b ∈ l1, ¬(bfs T exLvl4 2 2 id ((0 : ℤ), (0 : ℤ)) b =
            bfs T exLvl4 2 2 id ((0 : ℤ), (0 : ℤ)) c ∧
          toExplore T exLvl4 2 2 exGly4 (bfs T exLvl4 2 2 id ((0 : ℤ), (0 : ℤ))) id b = true)) :=
  ⟨by decide, by decide,
    (C4_explore_select T exLvl4 2 2 exGly4 (bfs T exLvl4 2 2 id ((0 : ℤ), (0 : ℤ))) id
      (by decide)).1 (by decide)⟩

/-! ## Primitive action layer: `calc_direction`, `direction`, `move`, `kick` -/

/-- The discrete movement actions the `direction` dictionary can submit. -/
inductive ActionTok where
  | N | S | E | W | NE | SE | NW | SW | DOWN | UP
deriving DecidableEq

/-- How a primitive action call can fail: a failed `assert` (precondition),
a dictionary `KeyError`, or the recoverable position-mismatch `AgentPanic`. -/
inductive ActErr where
  | assertFail | keyError | mismatch
deriving DecidableEq

/-- `Agent.calc_direction`: assert Chebyshev distance at most 1, then build
the compass token character by character ('s' then 'n' then 'e' then 'w'),
with "." for the zero offset.  Python strings are modelled as `List Char`;
`none` models the assertion failure. -/
def calc_direction (fy fx ty tx : ℤ) : Option (List Char) :=
  if (fy - ty).natAbs ≤ 1 ∧ (fx - tx).natAbs ≤ 1 then
    let r := (if ty = fy + 1 then ['s'] else []) ++ (if ty = fy - 1 then ['n'] else []) ++
      (if tx = fx + 1 then ['e'] else []) ++ (if tx = fx - 1 then ['w'] else [])
    some (if r = [] then ['.'] else r)
  else none

/-- The action dictionary of `Agent.direction`.  It has no entry for ".",
so a zero offset raises `KeyError`. -/
def actionOfDir (d : List Char) : Option ActionTok :=
  if d = ['n'] then some .N else if d = ['s'] then some .S
  else if d = ['e'] then some .E else if d = ['w'] then some .W
  else if d = ['n','e'] then some .NE else if d = ['s','e'] then some .SE
  else if d = ['n','w'] then some .NW else if d = ['s','w'] then some .SW
  else if d = ['>'] then some .DOWN else if d = ['<'] then some .UP
  else none

/-- `Agent.direction` on an absolute coordinate target: compute the token,
look it up, submit the action. -/
def directionOp (fy fx ty tx : ℤ) : Except ActErr ActionTok :=
  match calc_direction fy fx ty tx with
  | none => .error .assertFail
  | some d =>
    match actionOfDir d with
    | none => .error .keyError
    | some a => .ok a

/-- The arithmetically predicted position of `Agent.move`:
`expected_y = y + ('s' in dir) - ('n' in dir)` and likewise for x. -/
def moveExpected (fy fx : ℤ) (d : List Char) : ℤ × ℤ :=
  (fy + (if d.contains 's' then 1 else 0) - (if d.contains 'n' then 1 else 0),
   fx + (if d.contains 'e' then 1 else 0) - (if d.contains 'w' then 1 else 0))

/-- `Agent.move` to an absolute coordinate, given the position `(oy, ox)`
observed after the submitted action: raises the recoverable position-mismatch
condition when the observed position differs from the predicted one. -/
def moveOp (fy fx ty tx oy ox : ℤ) : Except ActErr Unit :=
  match calc_direction fy fx ty tx with
  | none => .error .assertFail
  | some d =>
    match actionOfDir d with
    | none => .error .keyError
    | some _ =>
      if oy = (moveExpected fy fx d).1 ∧ ox = (moveExpected fy fx d).2 then .ok ()
      else .error .mismatch

/-- `Agent.kick`: submit the kick action, `move` into the cell, then report
whether the agent ended up exactly there.  The comparison only runs if `move`
returned; a mismatch propagates as the error instead. -/
def kickOp (fy fx ty tx oy ox : ℤ) : Except ActErr Bool :=
  match moveOp fy fx ty tx oy ox with
  | .error e => .error e
  | .ok _ => .ok (decide (oy = ty) && decide (ox = tx))

lemma calc_direction_shift (fy fx dy dx : ℤ) :
    calc_direction fy fx (fy + dy) (fx + dx) = calc_direction 0 0 dy dx := by
  rw [calc_direction, calc_direction]
  have e1 : (fy - (fy + dy)).natAbs = ((0 : ℤ) - dy).natAbs := by
    have : fy - (fy + dy) = (0 : ℤ) - dy := by ring
    rw [this]
  have e2 : (fx - (fx + dx)).natAbs = ((0 : ℤ) - dx).natAbs := by
    have : fx - (fx + dx) = (0 : ℤ) - dx := by ring
    rw [this]
  have e3 : (fy + dy = fy + 1) = (dy = (0 : ℤ) + 1) :=
    propext ⟨fun h => by omega, fun h => by omega⟩
  have e4 : (fy + dy = fy - 1) = (dy = (0 : ℤ) - 1) :=
    propext ⟨fun h => by omega, fun h => by omega⟩
  have e5 : (fx + dx = fx + 1) = (dx = (0 : ℤ) + 1) :=
    propext ⟨fun h => by omega, fun h => by omega⟩
  have e6 : (fx + dx = fx - 1) = (dx = (0 : ℤ) - 1) :=
    propext ⟨fun h => by omega, fun h => by omega⟩
  simp only [e1, e2, e3, e4, e5, e6]

lemma direction_eval (dy dx : ℤ) (d : List Char) (fy fx : ℤ)
    (hc : calc_direction 0 0 dy dx = some d)
    (hs : ((0 : ℤ) + (if d.contains 's' then 1 else 0) -
        (if d.contains 'n' then 1 else 0)) = dy)
    (hx : ((0 : ℤ) + (if d.contains 'e' then 1 else 0) -
        (if d.contains 'w' then 1 else 0)) = dx) :
    calc_direction fy fx (fy + dy) (fx + dx) = some d ∧
    moveExpected fy fx d = (fy + dy, fx + dx) := by
  refine ⟨by rw [calc_direction_shift]; exact hc, ?_⟩
  rw [moveExpected, Prod.mk.injEq]
  constructor
  · calc fy + (if d.contains 's' then 1 else 0) - (if d.contains 'n' then 1 else 0)
        = fy + ((0 : ℤ) + (if d.contains 's' then 1 else 0) -
          (if d.contains 'n' then 1 else 0)) := by ring
    _ = fy + dy := by rw [hs]
  · calc fx + (if d.contains 'e' then 1 else 0) - (if d.contains 'w' then 1 else 0)
        = fx + ((0 : ℤ) + (if d.contains 'e' then 1 else 0) -
          (if d.contains 'w' then 1 else 0)) := by ring
    _ = fx + dx := by rw [hx]

/-- For a target at Chebyshev distance exactly 1 the compass token exists, is
in the dictionary, and the predicted position is the target itself. -/
lemma dir_cheb_one {fy fx ty tx : ℤ}
    (h1 : (fy - ty).natAbs ≤ 1) (h2 : (fx - tx).natAbs ≤ 1)
    (hne : ty ≠ fy ∨ tx ≠ fx) :
    ∃ d a, calc_direction fy fx ty tx = some d ∧ actionOfDir d = some a ∧
      moveExpected fy fx d = (ty, tx) := by
  have hdy : ty = fy + (-1) ∨ ty = fy + 0 ∨ ty = fy + 1 := by omega
  have hdx : tx = fx + (-1) ∨ tx = fx + 0 ∨ tx = fx + 1 := by omega
  rcases hdy with hy | hy | hy <;> rcases hdx with hx | hx | hx <;> rw [hy, hx]
  · exact ⟨['n','w'], .NW, by
      have := direction_eval (-1) (-1) ['n','w'] fy fx
        (by decide) (by decide) (by decide)
      exact ⟨this.1, by decide, this.2⟩⟩
  · exact ⟨['n'], .N, by
      have := direction_eval (-1) (0) ['n'] fy fx
        (by decide) (by decide) (by decide)
      exact ⟨this.1, by decide, this.2⟩⟩
  · exact ⟨['n','e'], .NE, by
      have := direction_eval (-1) (1) ['n','e'] fy fx
        (by decide) (by decide) (by decide)
      exact ⟨this.1, by decide, this.2⟩⟩
  · exact ⟨['w'], .W, by
      have := direction_eval (0) (-1) ['w'] fy fx
        (by decide) (by decide) (by decide)
      exact ⟨this.1, by decide, this.2⟩⟩
  · exfalso
    rcases hne with h | h
    · exact h (by omega)
    · exact h (by omega)
  · exact ⟨['e'], .E, by
      have := direction_eval (0) (1) ['e'] fy fx
        (by decide) (by decide) (by decide)
      exact ⟨this.1, by decide, this.2⟩⟩
  · exact ⟨['s','w'], .SW, by
      have := direction_eval (1) (-1) ['s','w'] fy fx
        (by decide) (by decide) (by decide)
      exact ⟨this.1, by decide, this.2⟩⟩
  · exact ⟨['s'], .S, by
      have := direction_eval (1) (0) ['s'] fy fx
        (by decide) (by decide) (by decide)
      exact ⟨this.1, by decide, this.2⟩⟩
  · exact ⟨['s','e'], .SE, by
      have := direction_eval (1) (1) ['s','e'] fy fx
        (by decide) (by decide) (by decide)
      exact ⟨this.1, by decide, this.2⟩⟩

instance {e a : Type} [DecidableEq e] [DecidableEq a] : DecidableEq (Except e a) :=
  fun x y =>
    match x, y with
    | .error u, .error v =>
      if h : u = v then .isTrue (by rw [h]) else .isFalse (fun hh => by cases hh; exact h rfl)
    | .error _, .ok _ => .isFalse (fun hh => by cases hh)
    | .ok _, .error _ => .isFalse (fun hh => by cases hh)
    | .ok u, .ok v =>
      if h : u = v then .isTrue (by rw [h]) else .isFalse (fun hh => by cases hh; exact h rfl)

lemma calc_direction_self (fy fx : ℤ) : calc_direction fy fx fy fx = some ['.'] := by
  have h1 : fy = fy + 0 := by ring
  have h2 : fx = fx + 0 := by ring
  calc calc_direction fy fx fy fx = calc_direction fy fx (fy + 0) (fx + 0) := by
        rw [← h1, ← h2]
  _ = calc_direction 0 0 0 0 := calc_direction_shift fy fx 0 0
  _ = some ['.'] := by decide

/-- C9: the claim includes distance 0 ("the agent's own cell") among the
targets `direction` converts without error, but the token for the zero offset
is "." and the action dictionary has no "." entry, so the call raises
`KeyError` instead of submitting an action. -/
theorem C9_counterexample :
    directionOp 3 4 3 4 = Except.error ActErr.keyError ∧
    ∀ a : ActionTok, directionOp 3 4 3 4 ≠ Except.ok a := by
  have h : directionOp 3 4 3 4 = Except.error ActErr.keyError := by decide
  exact ⟨h, fun a hh => by rw [h] at hh; cases hh⟩

/-- C9 (amended): a target at Chebyshev distance exactly 1 is converted into
one submitted action without error; the agent's own cell (distance 0) raises
a dictionary lookup error; a target beyond distance 1 fails the precondition
assertion. -/
theorem C9_direction (fy fx ty tx : ℤ) :
    ((fy - ty).natAbs ≤ 1 → (fx - tx).natAbs ≤ 1 → (ty ≠ fy ∨ tx ≠ fx) →
      ∃ a, directionOp fy fx ty tx = Except.ok a) ∧
    (ty = fy → tx = fx → directionOp fy fx ty tx = Except.error ActErr.keyError) ∧
    (¬((fy - ty).natAbs ≤ 1 ∧ (fx - tx).natAbs ≤ 1) →
      directionOp fy fx ty tx = Except.error ActErr.assertFail) := by
  refine ⟨?_, ?_, ?_⟩
  · intro h1 h2 hne
    obtain ⟨d, a, hc, ha, -⟩ := dir_cheb_one h1 h2 hne
    refine ⟨a, ?_⟩
    simp only [directionOp, hc, ha]
  · intro h1 h2
    subst h1; subst h2
    simp only [directionOp, calc_direction_self]
    decide
  · intro h
    have hnone : calc_direction fy fx ty tx = none := by
      rw [calc_direction, if_neg h]
    simp only [directionOp, hnone]

/-- Witness: C9_direction at a concrete adjacent, zero and far target. -/
theorem C9_direction_witness :
    ((0 : ℤ) - 0).natAbs ≤ 1 ∧ ((0 : ℤ) - 1).natAbs ≤ 1 ∧
    (((0 : ℤ) ≠ 0) ∨ ((1 : ℤ) ≠ 0)) ∧
    (∃ a, directionOp 0 0 0 1 = Except.ok a) :=
  ⟨by decide, by decide, Or.inr (by decide),
    (C9_direction 0 0 0 1).1 (by decide) (by decide) (Or.inr (by decide))⟩

/-- C6: when the agent does not end up at the kicked cell, `kick` does not
return `False` — the inner `move` raises the position-mismatch condition
first, so the comparison line never runs. -/
theorem C6_counterexample :
    kickOp 0 0 0 1 0 0 = Except.error ActErr.mismatch ∧
    ∀ b : Bool, kickOp 0 0 0 1 0 0 ≠ Except.ok b := by
  refine ⟨by decide, by decide⟩

/-- C6 (amended): for an adjacent cell (Chebyshev distance exactly 1), `kick`
submits the kick, attempts the move, and returns `True` exactly when the
agent ends up at the cell; when it does not, `kick` raises the recoverable
position-mismatch condition instead of returning a boolean. -/
theorem C6_kick (fy fx ty tx oy ox : ℤ)
    (h1 : (fy - ty).natAbs ≤ 1) (h2 : (fx - tx).natAbs ≤ 1)
    (hne : ty ≠ fy ∨ tx ≠ fx) :
    (oy = ty → ox = tx → kickOp fy fx ty tx oy ox = Except.ok true) ∧
    (¬(oy = ty ∧ ox = tx) → kickOp fy fx ty tx oy ox = Except.error ActErr.mismatch) := by
  obtain ⟨d, a, hc, ha, he⟩ := dir_cheb_one h1 h2 hne
  have he1 : (moveExpected fy fx d).1 = ty := by rw [he]
  have he2 : (moveExpected fy fx d).2 = tx := by rw [he]
  constructor
  · intro hy hx
    subst hy; subst hx
    have hmove : moveOp fy fx oy ox oy ox = Except.ok () := by
      simp only [moveOp, hc, ha]
      rw [if_pos ⟨he1.symm, he2.symm⟩]
    simp only [kickOp, hmove]
    simp
  · intro hno
    have hmove : moveOp fy fx ty tx oy ox = Except.error ActErr.mismatch := by
      simp only [moveOp, hc, ha]
      rw [if_neg (by rw [he1, he2]; exact hno)]
    simp only [kickOp, hmove]

/-- Witness: C6_kick at a concrete adjacent target, in both outcomes. -/
theorem C6_kick_witness :
    ((0 : ℤ) - 0).natAbs ≤ 1 ∧ ((0 : ℤ) - 1).natAbs ≤ 1 ∧
    (¬((0 : ℤ) = 0 ∧ (0 : ℤ) = 1)) ∧
    kickOp 0 0 0 1 0 1 = Except.ok true ∧
    kickOp 0 0 0 1 0 0 = Except.error ActErr.mismatch :=
  ⟨by decide, by decide, by decide,
    (C6_kick 0 0 0 1 0 1 (by decide) (by decide) (Or.inr (by decide))).1 rfl rfl,
    (C6_kick 0 0 0 1 0 0 (by decide) (by decide) (Or.inr (by decide))).2 (by decide)⟩

/-! ## Control loop: `Agent.main` -/

/-- The outcome of one `select_strategy` call, as seen by the `try`/`except`
dispatch in `Agent.main`: normal return, an `AgentPanic` with its message, an
`AgentChangeStrategy` interrupt, or `AgentFinished`. -/
inductive Outcome where
  | normal
  | panicked (msg : List Char)
  | changeStrategy
  | finished

/-- `Agent.main`: process strategy outcomes until `AgentFinished`; an
`AgentPanic` appends its message to `all_panics` and the loop continues; an
`AgentChangeStrategy` is swallowed; the function returns the final log. -/
def mainLoop : List Outcome → List (List Char) → List (List Char)
  | [], log => log
  | .normal :: rest, log => mainLoop rest log
  | .panicked m :: rest, log => mainLoop rest (log ++ [m])
  | .changeStrategy :: rest, log => mainLoop rest log
  | .finished :: _, log => log

/-- C8: a move whose observed resulting position differs from the predicted
one raises the recoverable position-mismatch condition (never a fatal error),
and the control loop handles it by appending exactly one entry to the run log
and continuing with the remaining outcomes — unlike `AgentFinished`, which
stops the loop. -/
theorem C8_panic_recovery :
    (∀ fy fx ty tx oy ox : ℤ,
      (fy - ty).natAbs ≤ 1 → (fx - tx).natAbs ≤ 1 → (ty ≠ fy ∨ tx ≠ fx) →
      ¬(oy = ty ∧ ox = tx) → moveOp fy fx ty tx oy ox = Except.error ActErr.mismatch) ∧
    (∀ (m : List Char) (rest : List Outcome) (log : List (List Char)),
      mainLoop (.panicked m :: rest) log = mainLoop rest (log ++ [m])) ∧
    (∀ (rest : List Outcome) (log : List (List Char)),
      mainLoop (.finished :: rest) log = log) := by
  refine ⟨?_, ?_, ?_⟩
  · intro fy fx ty tx oy ox h1 h2 hne hno
    obtain ⟨d, a, hc, ha, he⟩ := dir_cheb_one h1 h2 hne
    have he1 : (moveExpected fy fx d).1 = ty := by rw [he]
    have he2 : (moveExpected fy fx d).2 = tx := by rw [he]
    simp only [moveOp, hc, ha]
    rw [if_neg (by rw [he1, he2]; exact hno)]
  · intro m rest log
    rfl
  · intro rest log
    rfl

/-- Witness: C8_panic_recovery at a concrete mismatching move and a concrete
panic outcome in the loop. -/
theorem C8_panic_recovery_witness :
    ((0 : ℤ) - 0).natAbs ≤ 1 ∧ ((0 : ℤ) - 1).natAbs ≤ 1 ∧
    (¬((0 : ℤ) = 0 ∧ (0 : ℤ) = 1)) ∧
    moveOp 0 0 0 1 0 0 = Except.error ActErr.mismatch ∧
    mainLoop [.panicked ['p'], .finished] [] = mainLoop [.finished] ([] ++ [['p']]) :=
  ⟨by decide, by decide, by decide,
    (C8_panic_recovery.1 0 0 0 1 0 0 (by decide) (by decide) (Or.inr (by decide))
      (by decide)),
    C8_panic_recovery.2.1 ['p'] [.finished] []⟩

/-! ## The map registry is a class attribute shared between instances -/

/-- A registry key: `(blstats.dungeon_number, blstats.level_number)`. -/
abbrev LevelKey := ℤ × ℤ

/-- `levels = {}` in the body of `class Agent` creates a CLASS attribute: one
dictionary object attached to the class, not to any instance.  `__init__`
never assigns `self.levels`, so this single dictionary is all there is. -/
structure AgentClassState where
  classLevels : List (LevelKey × Level)

/-- Python attribute lookup `self.levels`: the instance dictionary of every
`Agent` has no `levels` entry, so the lookup falls through to the class
attribute regardless of which instance performs it. -/
def registryView (_agentId : ℕ) (w : AgentClassState) : List (LevelKey × Level) :=
  w.classLevels

/-- `Agent.current_level`: look the key up in `self.levels` and, when absent,
execute `self.levels[key] = self.Level()` — an in-place mutation of the one
shared dictionary. -/
def currentLevelOp (w : AgentClassState) (key : LevelKey) : AgentClassState :=
  if (w.classLevels.map Prod.fst).contains key then w
  else ⟨w.classLevels ++ [(key, Level.init)]⟩

/-- C5: with two `Agent` instances in one process, instance 1 calling
`current_level()` on a fresh key inserts a `Level` that instance 2 then
observes through its own `self.levels`, because `levels` is a class
attribute; the claim that each instance exclusively owns its Map Registry is
the spec's stated intent (§5 and the design note in §9), and the code's
class-scope `levels = {}` is the slip that breaks it. -/
theorem C5_shared_registry :
    (registryView 2 (currentLevelOp ⟨[]⟩ ((0 : ℤ), (1 : ℤ)))).map Prod.fst =
      [((0 : ℤ), (1 : ℤ))] ∧
    (registryView 2 (⟨[]⟩ : AgentClassState)).map Prod.fst = [] ∧
    registryView 1 (currentLevelOp ⟨[]⟩ ((0 : ℤ), (1 : ℤ))) =
      registryView 2 (currentLevelOp ⟨[]⟩ ((0 : ℤ), (1 : ℤ))) :=
  ⟨rfl, rfl, rfl⟩

end AutoAscend
